import Mathlib

/-!
Verification development for the lattice-surgery visualizer engine
(source file src/lattice.tsx of the SurgeryGame repository).

Modelling choices.  JavaScript numbers are modelled as rationals.
The JavaScript object heap is modelled explicitly: a `Store` is a list
of patch cells addressed by natural-number references, because the
engine shares patch objects by reference between the patch map and the
measurement overlay and mutates them in place, and `cloneRuntimeState`
copies the map entries but not the overlay references.  A JavaScript
`Map` is modelled as an insertion-ordered association list from patch
identifiers to references.
-/

namespace SurgeryGame

abbrev PatchId := String

abbrev Ref := Nat

/-- `type EdgeKind = "X" | "Z"` -/
inductive EdgeKind
  | X
  | Z
deriving DecidableEq, Repr

/-- the four edge names, `keyof Patch["edges"]` -/
inductive EdgeName
  | top
  | right
  | bottom
  | left
deriving DecidableEq, Repr

/-- `type Rect = { x: number; y: number; w: number; h: number }` -/
structure Rect where
  x : ℚ
  y : ℚ
  w : ℚ
  h : ℚ
deriving DecidableEq, Repr

/-- the per-face boundary kinds of a patch -/
structure EdgeSet where
  top : EdgeKind
  right : EdgeKind
  bottom : EdgeKind
  left : EdgeKind
deriving DecidableEq, Repr

/-- `type Patch = { id; rect; edges; label? }` -/
structure Patch where
  id : PatchId
  rect : Rect
  edges : EdgeSet
  label : Option String
deriving DecidableEq, Repr

/-- `type RuntimePatch = Patch & { _animFrom?: Rect; _animTo?: Rect }`
(the fields `animFrom` and `animTo` model `_animFrom` and `_animTo`) -/
structure RuntimePatch where
  id : PatchId
  rect : Rect
  edges : EdgeSet
  label : Option String
  animFrom : Option Rect
  animTo : Option Rect
deriving DecidableEq, Repr

/-- `deepCopy(act.patch)` of a plain `Patch` yields a runtime patch with
no animation fields (they are absent on a freshly parsed `Patch`). -/
def Patch.toRuntime (p : Patch) : RuntimePatch :=
  { id := p.id, rect := p.rect, edges := p.edges, label := p.label,
    animFrom := none, animTo := none }

/-- `type Action = ...` (the unread optional `tickCost` field is kept). -/
inductive Action
  | InitPatch (patch : Patch)
  | DeformTo (id : PatchId) (tgt : Rect) (tickCost : Option Nat)
  | MoveTo (id : PatchId) (tox toy : ℚ) (tickCost : Option Nat)
  | TwoPatchMeas (lhsId : PatchId) (lhsEdge : EdgeName)
      (rhsId : PatchId) (rhsEdge : EdgeName) (outcome : Option Int)
  | SinglePatchMeas (id : PatchId) (basis : EdgeKind) (outcome : Option Int)
  | RotateEdges (id : PatchId)
  | Discard (id : PatchId)
deriving DecidableEq, Repr

/-- `type Step = { actions: Action[]; label?: string }` -/
structure Step where
  actions : List Action
  label : Option String
deriving DecidableEq, Repr

/-- `type Program = { tickMs; grid; steps }` -/
structure Program where
  tickMs : ℚ
  gridCols : Nat
  gridRows : Nat
  steps : List Step
deriving DecidableEq, Repr

-- --- Utility -------------------------------------------------------------

/-- `function clamp01(x) { return Math.min(1, Math.max(0, x)); }` -/
def clamp01 (x : ℚ) : ℚ := min 1 (max 0 x)

/-- `function lerp(a, b, t) { return a + (b - a) * t; }` -/
def lerp (a b t : ℚ) : ℚ := a + (b - a) * t

/-- `function lerpRect(a, b, t)` -/
def lerpRect (a b : Rect) (t : ℚ) : Rect :=
  { x := lerp a.x b.x t, y := lerp a.y b.y t,
    w := lerp a.w b.w t, h := lerp a.h b.h t }

-- --- The heap ------------------------------------------------------------

/-- The object heap: a list of patch cells addressed by position. -/
structure Store where
  cells : List RuntimePatch
deriving DecidableEq, Repr

def Store.get (σ : Store) (r : Ref) : Option RuntimePatch :=
  σ.cells.get? r

def Store.set (σ : Store) (r : Ref) (c : RuntimePatch) : Store :=
  ⟨σ.cells.set r c⟩

/-- Allocate a fresh cell (`deepCopy` produces a fresh object). -/
def Store.alloc (σ : Store) (c : RuntimePatch) : Store × Ref :=
  (⟨σ.cells ++ [c]⟩, σ.cells.length)

/-- Fallback cell used to keep reads total; never reached on states
whose references are valid. -/
def defaultRP : RuntimePatch :=
  { id := "", rect := ⟨0, 0, 0, 0⟩, edges := ⟨.Z, .X, .Z, .X⟩,
    label := none, animFrom := none, animTo := none }

-- --- The patch map (a JavaScript Map as an ordered association list) -----

abbrev PatchMap := List (PatchId × Ref)

/-- `Map.get` -/
def mapGet : PatchMap → PatchId → Option Ref
  | [], _ => none
  | e :: es, k => if e.1 = k then some e.2 else mapGet es k

/-- `Map.set`: replace in place when the key exists, else append. -/
def mapSet : PatchMap → PatchId → Ref → PatchMap
  | [], k, r => [(k, r)]
  | e :: es, k, r => if e.1 = k then (k, r) :: es else e :: mapSet es k r

/-- `Map.delete`: remove the binding of the key, when present. -/
def mapDelete : PatchMap → PatchId → PatchMap
  | [], _ => []
  | e :: es, k => if e.1 = k then es else e :: mapDelete es k

def mapKeys (m : PatchMap) : List PatchId := m.map (fun e => e.1)

def mapRefs (m : PatchMap) : List Ref := m.map (fun e => e.2)

-- --- Runtime state -------------------------------------------------------

/-- The `measurementOverlay` slot: it stores patch object references
(`a`, `b`), exactly as the source stores the patch objects themselves. -/
structure MeasOverlay where
  a : Ref
  aEdge : EdgeName
  b : Ref
  bEdge : EdgeName
  outcome : Option Int
  progress : ℚ
deriving DecidableEq, Repr

/-- `type RuntimeState = { patches: Map<PatchId, RuntimePatch>;
measurementOverlay?: {...} }` -/
structure RuntimeState where
  patches : PatchMap
  measurementOverlay : Option MeasOverlay
deriving DecidableEq, Repr

/-- `function cloneRuntimeState(s)`: deep-copies every map entry into a
fresh cell; the overlay is copied by spread, keeping the same patch
references. -/
def cloneRuntimeState (σ : Store) (s : RuntimeState) : Store × RuntimeState :=
  let acc := s.patches.foldl
    (fun (acc : Store × PatchMap) e =>
      let alloc := acc.1.alloc ((acc.1.get e.2).getD defaultRP)
      (alloc.1, acc.2 ++ [(e.1, alloc.2)]))
    (σ, [])
  (acc.1, { patches := acc.2, measurementOverlay := s.measurementOverlay })

-- --- Engine: commit ------------------------------------------------------

/-- the `RotateEdges` case body:
`p.edges = { top: e.left, right: e.top, bottom: e.right, left: e.bottom }` -/
def rotateCW (e : EdgeSet) : EdgeSet :=
  { top := e.left, right := e.top, bottom := e.right, left := e.bottom }

/-- One iteration of the `switch` in `commitActions`. -/
def commitAct (σ : Store) (s : RuntimeState) : Action → Store × RuntimeState
  | .InitPatch p =>
      let alloc := σ.alloc p.toRuntime
      (alloc.1, { s with patches := mapSet s.patches p.id alloc.2 })
  | .DeformTo i tgt _ =>
      match mapGet s.patches i with
      | none => (σ, s)
      | some r =>
        match σ.get r with
        | none => (σ, s)
        | some c =>
            (σ.set r { c with rect := tgt, animFrom := none, animTo := none }, s)
  | .MoveTo i tox toy _ =>
      match mapGet s.patches i with
      | none => (σ, s)
      | some r =>
        match σ.get r with
        | none => (σ, s)
        | some c =>
            (σ.set r { c with rect := { c.rect with x := tox, y := toy },
                              animFrom := none, animTo := none }, s)
  | .RotateEdges i =>
      match mapGet s.patches i with
      | none => (σ, s)
      | some r =>
        match σ.get r with
        | none => (σ, s)
        | some c => (σ.set r { c with edges := rotateCW c.edges }, s)
  | .Discard i => (σ, { s with patches := mapDelete s.patches i })
  | .SinglePatchMeas _ _ _ => (σ, s)
  | .TwoPatchMeas _ _ _ _ _ => (σ, { s with measurementOverlay := none })

/-- `function commitActions(state, actions)` -/
def commitActions (σ : Store) (s : RuntimeState) (acts : List Action) :
    Store × RuntimeState :=
  acts.foldl (fun p a => commitAct p.1 p.2 a) (σ, s)

-- --- Engine: prepare -----------------------------------------------------

/-- One iteration of the `switch` in `prepareTick` (the overlay reset
happens once, before the loop, in `prepareTick` itself). -/
def prepareAct (σ : Store) (s : RuntimeState) : Action → Store × RuntimeState
  | .DeformTo i tgt _ =>
      match mapGet s.patches i with
      | none => (σ, s)
      | some r =>
        match σ.get r with
        | none => (σ, s)
        | some c =>
            (σ.set r { c with animFrom := some c.rect, animTo := some tgt }, s)
  | .MoveTo i tox toy _ =>
      match mapGet s.patches i with
      | none => (σ, s)
      | some r =>
        match σ.get r with
        | none => (σ, s)
        | some c =>
            (σ.set r { c with animFrom := some c.rect,
                              animTo := some { c.rect with x := tox, y := toy } }, s)
  | .TwoPatchMeas li le ri re oc =>
      match mapGet s.patches li, mapGet s.patches ri with
      | some ra, some rb =>
          let o : MeasOverlay :=
            { a := ra, aEdge := le, b := rb, bEdge := re,
              outcome := oc, progress := 0 }
          (σ, { s with measurementOverlay := some o })
      | _, _ => (σ, s)
  | _ => (σ, s)

/-- `function prepareTick(state, actions)`: resets the overlay, then
processes the batch in order. -/
def prepareTick (σ : Store) (s : RuntimeState) (acts : List Action) :
    Store × RuntimeState :=
  acts.foldl (fun p a => prepareAct p.1 p.2 a)
    (σ, { s with measurementOverlay := none })

-- --- Engine: advance -----------------------------------------------------

/-- The interpolation applied to one patch cell by
`advanceInterpolations`: when both animation rectangles are recorded,
the current rectangle becomes their interpolation. -/
def advCell (t01 : ℚ) (c : RuntimePatch) : RuntimePatch :=
  match c.animFrom, c.animTo with
  | some f, some tgt => { c with rect := lerpRect f tgt t01 }
  | _, _ => c

/-- The loop body of `advanceInterpolations` over one map entry. -/
def advStep (t01 : ℚ) (σ : Store) (e : PatchId × Ref) : Store :=
  match σ.get e.2 with
  | none => σ
  | some c =>
    match c.animFrom, c.animTo with
    | some _, some _ => σ.set e.2 (advCell t01 c)
    | _, _ => σ

/-- `function advanceInterpolations(runtime, t01)` -/
def advanceInterpolations (σ : Store) (s : RuntimeState) (t01 : ℚ) :
    Store × RuntimeState :=
  (s.patches.foldl (advStep t01) σ,
   { s with measurementOverlay :=
       s.measurementOverlay.map (fun o => { o with progress := t01 }) })

-- --- Component state and controls ----------------------------------------

/-- The React component state: runtime, step cursor, elapsed time in the
current tick, play flag. -/
structure CompState where
  runtime : RuntimeState
  stepIdx : Nat
  tInStep : ℚ
  playing : Bool
deriving DecidableEq, Repr

def emptyStep : Step := { actions := [], label := none }

/-- `const stepOnce = () => ...`: clone, prepare, advance to 1, commit,
advance the cursor clamped to the last step. -/
def stepOnce (σ : Store) (pr : Program) (cs : CompState) : Store × CompState :=
  let idx := min cs.stepIdx (pr.steps.length - 1)
  let st := (pr.steps.get? idx).getD emptyStep
  let c := cloneRuntimeState σ cs.runtime
  let p := prepareTick c.1 c.2 st.actions
  let a := advanceInterpolations p.1 p.2 1
  let k := commitActions a.1 a.2 st.actions
  (k.1, { runtime := k.2, stepIdx := min (idx + 1) (pr.steps.length - 1),
          tInStep := 0, playing := cs.playing })

/-- One invocation of the animation-clock callback with elapsed real
time `dt` (the body of the `useAnimationClock` callback, drawing
omitted). -/
def clockFrame (σ : Store) (pr : Program) (cs : CompState) (dt : ℚ) :
    Store × CompState :=
  let c0 := cloneRuntimeState σ cs.runtime
  if cs.playing = true ∧ 0 < pr.steps.length then
    let st := (pr.steps.get? cs.stepIdx).getD emptyStep
    let pPrep :=
      if cs.tInStep = 0 then
        let c1 := cloneRuntimeState c0.1 cs.runtime
        prepareTick c1.1 c1.2 st.actions
      else c0
    let newT := cs.tInStep + dt
    let t01 := clamp01 (newT / pr.tickMs)
    let pAdv := advanceInterpolations pPrep.1 pPrep.2 t01
    if pr.tickMs ≤ newT then
      let pCom := commitActions pAdv.1 pAdv.2 st.actions
      (pCom.1, { runtime := pCom.2,
                 stepIdx := min (pr.steps.length - 1) (cs.stepIdx + 1),
                 tInStep := 0, playing := cs.playing })
    else
      (pAdv.1, { runtime := pAdv.2, stepIdx := cs.stepIdx,
                 tInStep := newT, playing := cs.playing })
  else
    (c0.1, { runtime := c0.2, stepIdx := cs.stepIdx,
             tInStep := cs.tInStep, playing := cs.playing })

-- --- Well-formedness, observation, value-level semantics ------------------

/-- A JavaScript runtime state is well formed: map keys are unique (a
`Map` invariant), the map entries hold pairwise distinct objects, and
every reference is a live object. -/
structure WF (σ : Store) (s : RuntimeState) : Prop where
  keysNodup : (mapKeys s.patches).Nodup
  refsNodup : (mapRefs s.patches).Nodup
  refsValid : ∀ r ∈ mapRefs s.patches, r < σ.cells.length

/-- Resolve every map entry to the patch value it references. -/
def resolveMap (σ : Store) (m : PatchMap) : List (PatchId × RuntimePatch) :=
  m.map (fun e => (e.1, (σ.get e.2).getD defaultRP))

/-- The overlay as the renderer observes it: the two referenced patch
objects dereferenced, together with the edges, outcome and progress. -/
structure OverlayObs where
  a : RuntimePatch
  aEdge : EdgeName
  b : RuntimePatch
  bEdge : EdgeName
  outcome : Option Int
  progress : ℚ
deriving DecidableEq, Repr

/-- The overlay as observed by the renderer: the two referenced patch
objects are dereferenced. -/
def overlayView (σ : Store) (s : RuntimeState) : Option OverlayObs :=
  s.measurementOverlay.map (fun o =>
    ⟨(σ.get o.a).getD defaultRP, o.aEdge, (σ.get o.b).getD defaultRP,
     o.bEdge, o.outcome, o.progress⟩)

/-- Everything the renderer can observe of a runtime state. -/
def observe (σ : Store) (s : RuntimeState) :
    List (PatchId × RuntimePatch) × Option OverlayObs :=
  (resolveMap σ s.patches, overlayView σ s)

abbrev VMap := List (PatchId × RuntimePatch)

/-- Update the value bound to the first occurrence of a key. -/
def vUpdate (f : RuntimePatch → RuntimePatch) : VMap → PatchId → VMap
  | [], _ => []
  | e :: es, k => if e.1 = k then (e.1, f e.2) :: es else e :: vUpdate f es k

/-- Value-level `Map.set`. -/
def vSet : VMap → PatchId → RuntimePatch → VMap
  | [], k, v => [(k, v)]
  | e :: es, k, v => if e.1 = k then (k, v) :: es else e :: vSet es k v

/-- Value-level `Map.delete`. -/
def vDelete : VMap → PatchId → VMap
  | [], _ => []
  | e :: es, k => if e.1 = k then es else e :: vDelete es k

/-- Value-level effect of one committed action on the patch map. -/
def vCommitAct (m : VMap) : Action → VMap
  | .InitPatch p => vSet m p.id p.toRuntime
  | .DeformTo i tgt _ =>
      vUpdate (fun c => { c with rect := tgt, animFrom := none, animTo := none }) m i
  | .MoveTo i tox toy _ =>
      vUpdate (fun c => { c with rect := { c.rect with x := tox, y := toy },
                                 animFrom := none, animTo := none }) m i
  | .RotateEdges i => vUpdate (fun c => { c with edges := rotateCW c.edges }) m i
  | .Discard i => vDelete m i
  | _ => m

/-- Value-level effect of one prepared action on the patch map. -/
def vPrepareAct (m : VMap) : Action → VMap
  | .DeformTo i tgt _ =>
      vUpdate (fun c => { c with animFrom := some c.rect, animTo := some tgt }) m i
  | .MoveTo i tox toy _ =>
      vUpdate (fun c => { c with animFrom := some c.rect,
                                 animTo := some { c.rect with x := tox, y := toy } }) m i
  | _ => m

/-- Value-level effect of `advanceInterpolations` on the patch map. -/
def vAdvance (m : VMap) (t01 : ℚ) : VMap :=
  m.map (fun e => (e.1, advCell t01 e.2))

/-- The value-level composite of one full tick: prepare the whole
batch, advance to progress 1, commit the whole batch. -/
def vFullTick (m : VMap) (acts : List Action) : VMap :=
  acts.foldl vCommitAct (vAdvance (acts.foldl vPrepareAct m) 1)

/-- The overlay produced by one `TwoPatchMeas` action when both of its
referenced patches exist. -/
def overlayFor (m : PatchMap) : Action → Option MeasOverlay
  | .TwoPatchMeas li le ri re oc =>
      match mapGet m li, mapGet m ri with
      | some ra, some rb =>
          some { a := ra, aEdge := le, b := rb, bEdge := re,
                 outcome := oc, progress := 0 }
      | _, _ => none
  | _ => none

/-- Whether an action refers to a target patch identifier that is
absent from the patch map (`InitPatch` carries a new patch, not a
target reference). -/
def dangling (s : RuntimeState) : Action → Bool
  | .InitPatch _ => false
  | .DeformTo i _ _ => (mapGet s.patches i).isNone
  | .MoveTo i _ _ _ => (mapGet s.patches i).isNone
  | .TwoPatchMeas li _ ri _ _ =>
      (mapGet s.patches li).isNone || (mapGet s.patches ri).isNone
  | .SinglePatchMeas i _ _ => (mapGet s.patches i).isNone
  | .RotateEdges i => (mapGet s.patches i).isNone
  | .Discard i => (mapGet s.patches i).isNone

/-- Whether an action is a `TwoPatchMeas`. -/
def isMeas : Action → Bool
  | .TwoPatchMeas _ _ _ _ _ => true
  | _ => false

/-- A sequence of `advanceInterpolations` calls with the given
progress values. -/
def advanceMany (σ : Store) (s : RuntimeState) (ts : List ℚ) :
    Store × RuntimeState :=
  ts.foldl (fun p t => advanceInterpolations p.1 p.2 t) (σ, s)

-- --- Store lemmas --------------------------------------------------------

theorem store_get_set_self (σ : Store) (r : Ref) (c : RuntimePatch)
    (h : r < σ.cells.length) : (σ.set r c).get r = some c := by
  simp [Store.set, Store.get, List.get?_eq_getElem?, List.getElem?_set_eq_of_lt, h]

theorem store_get_set_ne (σ : Store) {r r' : Ref} (c : RuntimePatch)
    (h : r ≠ r') : (σ.set r c).get r' = σ.get r' := by
  simp [Store.set, Store.get, List.get?_eq_getElem?, List.getElem?_set_ne, h]

theorem store_length_set (σ : Store) (r : Ref) (c : RuntimePatch) :
    (σ.set r c).cells.length = σ.cells.length := by
  simp [Store.set]

theorem store_get_alloc_lt (σ : Store) (c : RuntimePatch) {r : Ref}
    (h : r < σ.cells.length) : (σ.alloc c).1.get r = σ.get r := by
  simp only [Store.alloc, Store.get, List.get?_eq_getElem?]
  exact List.getElem?_append_left h

theorem store_get_alloc_self (σ : Store) (c : RuntimePatch) :
    (σ.alloc c).1.get (σ.alloc c).2 = some c := by
  simp only [Store.alloc, Store.get]
  exact List.get?_concat_length σ.cells c

theorem store_length_alloc (σ : Store) (c : RuntimePatch) :
    (σ.alloc c).1.cells.length = σ.cells.length + 1 := by
  simp [Store.alloc]

theorem store_get_lt_isSome (σ : Store) {r : Ref} (h : r < σ.cells.length) :
    ∃ c, σ.get r = some c :=
  ⟨σ.cells[r], by rw [Store.get, List.get?_eq_getElem?]; exact List.getElem?_eq_getElem h⟩

theorem store_lt_of_get_some {σ : Store} {r : Ref} {c : RuntimePatch}
    (h : σ.get r = some c) : r < σ.cells.length := by
  rw [Store.get, List.get?_eq_getElem?] at h
  exact (List.getElem?_eq_some_iff.1 h).1

theorem store_eq_of_get_eq {σ τ : Store} (h : ∀ r, σ.get r = τ.get r) :
    σ = τ := by
  cases σ; cases τ
  simpa [Store.get] using List.ext h

-- --- Patch map lemmas ----------------------------------------------------

theorem mapGet_mem {m : PatchMap} {k : PatchId} {r : Ref}
    (h : mapGet m k = some r) : (k, r) ∈ m := by
  induction m with
  | nil => simp [mapGet] at h
  | cons e es ih =>
    obtain ⟨a, b⟩ := e
    by_cases hk : a = k
    · simp [mapGet, hk] at h
      subst hk; subst h
      exact List.mem_cons_self _ _
    · simp [mapGet, hk] at h
      exact List.mem_cons_of_mem _ (ih h)

theorem mem_mapRefs_of_mapGet {m : PatchMap} {k : PatchId} {r : Ref}
    (h : mapGet m k = some r) : r ∈ mapRefs m :=
  List.mem_map.2 ⟨(k, r), mapGet_mem h, rfl⟩

theorem mem_keys_of_mapGet_some {m : PatchMap} {k : PatchId} {r : Ref}
    (h : mapGet m k = some r) : k ∈ mapKeys m :=
  List.mem_map.2 ⟨(k, r), mapGet_mem h, rfl⟩

theorem mapGet_none_of_not_mem_keys {m : PatchMap} {k : PatchId}
    (h : k ∉ mapKeys m) : mapGet m k = none := by
  induction m with
  | nil => rfl
  | cons e es ih =>
    obtain ⟨a, b⟩ := e
    simp [mapKeys] at h
    have h1 : ¬ a = k := fun he => h.1 he.symm
    have h2 : k ∉ mapKeys es := by
      simp [mapKeys]
      intro x hx
      exact h.2 x hx
    simp [mapGet, h1, ih h2]

theorem mapRefs_mapSet_subset {m : PatchMap} {k : PatchId} {n : Ref} :
    ∀ r ∈ mapRefs (mapSet m k n), r ∈ mapRefs m ∨ r = n := by
  induction m with
  | nil => intro r hr; simp [mapSet, mapRefs] at hr; right; exact hr
  | cons e es ih =>
    intro r hr
    obtain ⟨a, b⟩ := e
    by_cases hk : a = k
    · simp [mapSet, hk, mapRefs] at hr
      rcases hr with h | h
      · right; exact h
      · left; simp [mapRefs]; right; exact h
    · simp [mapSet, hk, mapRefs] at hr
      rcases hr with h | h
      · left; simp [mapRefs]; left; exact h
      · rcases ih r (by simpa [mapRefs] using h) with h2 | h2
        · left; simp [mapRefs] at h2 ⊢; right; exact h2
        · right; exact h2

theorem mapKeys_mapSet {m : PatchMap} {k : PatchId} {n : Ref} :
    mapKeys (mapSet m k n) = if k ∈ mapKeys m then mapKeys m
      else mapKeys m ++ [k] := by
  induction m with
  | nil => simp [mapSet, mapKeys]
  | cons e es ih =>
    obtain ⟨a, b⟩ := e
    by_cases hk : a = k
    · subst hk
      simp [mapSet, mapKeys]
    · have hk2 : ¬ k = a := fun h => hk h.symm
      have hcons : mapKeys ((a, b) :: mapSet es k n)
          = a :: mapKeys (mapSet es k n) := rfl
      simp only [mapSet, if_neg hk]
      rw [hcons, ih]
      by_cases hm : k ∈ mapKeys es
      · rw [if_pos hm, if_pos (show k ∈ mapKeys ((a, b) :: es) from
          List.mem_cons.2 (Or.inr hm))]
        rfl
      · rw [if_neg hm, if_neg (show k ∉ mapKeys ((a, b) :: es) from by
          rw [show mapKeys ((a, b) :: es) = a :: mapKeys es from rfl,
            List.mem_cons]
          push_neg
          exact ⟨hk2, hm⟩)]
        rfl

theorem mapRefs_mapSet_nodup {m : PatchMap} {k : PatchId} {n : Ref}
    (hnd : (mapRefs m).Nodup) (hn : n ∉ mapRefs m) :
    (mapRefs (mapSet m k n)).Nodup := by
  induction m with
  | nil => simp [mapSet, mapRefs]
  | cons e es ih =>
    obtain ⟨a, b⟩ := e
    have hcons : mapRefs ((a, b) :: es) = b :: mapRefs es := rfl
    rw [hcons, List.nodup_cons] at hnd
    rw [hcons, List.mem_cons] at hn
    push_neg at hn
    by_cases hk : a = k
    · have h2 : mapRefs (mapSet ((a, b) :: es) k n) = n :: mapRefs es := by
        simp [mapSet, hk, mapRefs]
      rw [h2, List.nodup_cons]
      exact ⟨hn.2, hnd.2⟩
    · have h2 : mapRefs (mapSet ((a, b) :: es) k n)
          = b :: mapRefs (mapSet es k n) := by
        simp [mapSet, hk, mapRefs]
      rw [h2, List.nodup_cons]
      refine ⟨fun hmem => ?_, ih hnd.2 hn.2⟩
      rcases mapRefs_mapSet_subset b hmem with h | h
      · exact hnd.1 h
      · exact hn.1 h.symm

theorem mapDelete_sublist (m : PatchMap) (k : PatchId) :
    (mapDelete m k).Sublist m := by
  induction m with
  | nil => simp [mapDelete]
  | cons e es ih =>
    by_cases hk : e.1 = k
    · simp only [mapDelete, if_pos hk]
      exact List.sublist_cons_self e es
    · simp only [mapDelete, if_neg hk]
      exact ih.cons₂ e

theorem mapRefs_mapDelete_sublist (m : PatchMap) (k : PatchId) :
    (mapRefs (mapDelete m k)).Sublist (mapRefs m) :=
  (mapDelete_sublist m k).map _

theorem mapKeys_mapDelete_sublist (m : PatchMap) (k : PatchId) :
    (mapKeys (mapDelete m k)).Sublist (mapKeys m) :=
  (mapDelete_sublist m k).map _

-- --- resolveMap lemmas ---------------------------------------------------

theorem resolveMap_nil (σ : Store) : resolveMap σ [] = [] := rfl

theorem resolveMap_cons (σ : Store) (e : PatchId × Ref) (m : PatchMap) :
    resolveMap σ (e :: m) =
      (e.1, (σ.get e.2).getD defaultRP) :: resolveMap σ m := rfl

theorem resolveMap_congr {σ τ : Store} {m : PatchMap}
    (h : ∀ r ∈ mapRefs m, τ.get r = σ.get r) :
    resolveMap τ m = resolveMap σ m := by
  induction m with
  | nil => rfl
  | cons e es ih =>
    rw [resolveMap_cons, resolveMap_cons,
      h e.2 (by simp [mapRefs]),
      ih (fun r hr => h r (by simp [mapRefs] at hr ⊢; right; exact hr))]

theorem resolveMap_set_of_not_mem {σ : Store} {m : PatchMap} {r : Ref}
    {v : RuntimePatch} (h : r ∉ mapRefs m) :
    resolveMap (σ.set r v) m = resolveMap σ m :=
  resolveMap_congr (fun r' hr' =>
    store_get_set_ne σ v (fun he => h (by rw [he]; exact hr')))

theorem resolveMap_set_eq {σ : Store} {m : PatchMap} {k : PatchId} {r : Ref}
    {c : RuntimePatch} (f : RuntimePatch → RuntimePatch)
    (hnd : (mapRefs m).Nodup) (hg : mapGet m k = some r)
    (hc : σ.get r = some c) :
    resolveMap (σ.set r (f c)) m = vUpdate f (resolveMap σ m) k := by
  induction m with
  | nil => simp [mapGet] at hg
  | cons e es ih =>
    rw [show mapRefs (e :: es) = e.2 :: mapRefs es from rfl,
      List.nodup_cons] at hnd
    by_cases hk : e.1 = k
    · simp [mapGet, hk] at hg
      subst hg
      rw [resolveMap_cons, resolveMap_cons]
      simp [vUpdate, hk]
      constructor
      · rw [store_get_set_self σ _ _ (store_lt_of_get_some hc), hc]
        simp
      · exact resolveMap_set_of_not_mem hnd.1
    · simp [mapGet, hk] at hg
      have hr : r ∈ mapRefs es := mem_mapRefs_of_mapGet hg
      have hne : e.2 ≠ r := fun he => hnd.1 (by rw [he]; exact hr)
      rw [resolveMap_cons, resolveMap_cons]
      simp [vUpdate, hk]
      constructor
      · rw [store_get_set_ne σ _ (Ne.symm hne)]
      · exact ih hnd.2 hg

theorem resolveMap_alloc {σ : Store} {m : PatchMap} {v : RuntimePatch}
    (hval : ∀ r ∈ mapRefs m, r < σ.cells.length) :
    resolveMap (σ.alloc v).1 m = resolveMap σ m :=
  resolveMap_congr (fun r hr => store_get_alloc_lt σ v (hval r hr))

theorem resolveMap_alloc_set {σ : Store} {m : PatchMap} {k : PatchId}
    {v : RuntimePatch} (hval : ∀ r ∈ mapRefs m, r < σ.cells.length) :
    resolveMap (σ.alloc v).1 (mapSet m k (σ.alloc v).2)
      = vSet (resolveMap σ m) k v := by
  induction m with
  | nil =>
    simp [mapSet, vSet, resolveMap_cons, resolveMap_nil,
      store_get_alloc_self]
  | cons e es ih =>
    have hvale : e.2 < σ.cells.length := hval e.2 (by simp [mapRefs])
    have hvales : ∀ r ∈ mapRefs es, r < σ.cells.length :=
      fun r hr => hval r (by simp [mapRefs] at hr ⊢; right; exact hr)
    by_cases hk : e.1 = k
    · simp [mapSet, hk, vSet, resolveMap_cons]
      constructor
      · rw [store_get_alloc_self σ v]
        rfl
      · exact resolveMap_alloc hvales
    · simp [mapSet, hk, vSet, resolveMap_cons]
      constructor
      · rw [store_get_alloc_lt σ v hvale]
      · exact ih hvales

theorem resolveMap_mapDelete (σ : Store) (m : PatchMap) (k : PatchId) :
    resolveMap σ (mapDelete m k) = vDelete (resolveMap σ m) k := by
  induction m with
  | nil => rfl
  | cons e es ih =>
    by_cases hk : e.1 = k
    · simp [mapDelete, hk, vDelete, resolveMap]
    · simp only [mapDelete, if_neg hk, resolveMap_cons]
      rw [show vDelete ((e.1, (σ.get e.2).getD defaultRP) :: resolveMap σ es) k
          = (e.1, (σ.get e.2).getD defaultRP) :: vDelete (resolveMap σ es) k from by
        simp [vDelete, hk]]
      rw [ih]

theorem vUpdate_of_mapGet_none {σ : Store} {m : PatchMap} {k : PatchId}
    (f : RuntimePatch → RuntimePatch) (h : mapGet m k = none) :
    vUpdate f (resolveMap σ m) k = resolveMap σ m := by
  induction m with
  | nil => rfl
  | cons e es ih =>
    by_cases hk : e.1 = k
    · simp [mapGet, hk] at h
    · simp [mapGet, hk] at h
      rw [resolveMap_cons,
        show vUpdate f ((e.1, (σ.get e.2).getD defaultRP) :: resolveMap σ es) k
          = (e.1, (σ.get e.2).getD defaultRP) :: vUpdate f (resolveMap σ es) k from by
          simp [vUpdate, hk],
        ih h]

-- --- Per-action lemmas for commit ---------------------------------------

theorem WF_mono {σ τ : Store} {s : RuntimeState} (h : WF σ s)
    (hle : σ.cells.length ≤ τ.cells.length) : WF τ s :=
  ⟨h.keysNodup, h.refsNodup, fun r hr => lt_of_lt_of_le (h.refsValid r hr) hle⟩

theorem commitAct_overlay (σ : Store) (s : RuntimeState) (a : Action) :
    (commitAct σ s a).2.measurementOverlay
      = if isMeas a then none else s.measurementOverlay := by
  cases a with
  | InitPatch p => rfl
  | DeformTo i tgt tc =>
    cases hg : mapGet s.patches i with
    | none => simp [commitAct, hg, isMeas]
    | some r =>
      cases hc : σ.get r with
      | none => simp [commitAct, hg, hc, isMeas]
      | some c => simp [commitAct, hg, hc, isMeas]
  | MoveTo i tox toy tc =>
    cases hg : mapGet s.patches i with
    | none => simp [commitAct, hg, isMeas]
    | some r =>
      cases hc : σ.get r with
      | none => simp [commitAct, hg, hc, isMeas]
      | some c => simp [commitAct, hg, hc, isMeas]
  | RotateEdges i =>
    cases hg : mapGet s.patches i with
    | none => simp [commitAct, hg, isMeas]
    | some r =>
      cases hc : σ.get r with
      | none => simp [commitAct, hg, hc, isMeas]
      | some c => simp [commitAct, hg, hc, isMeas]
  | Discard i => rfl
  | SinglePatchMeas i basis oc => rfl
  | TwoPatchMeas li le ri re oc => rfl

theorem commitAct_WF {σ : Store} {s : RuntimeState} (a : Action) (h : WF σ s) :
    WF (commitAct σ s a).1 (commitAct σ s a).2 := by
  cases a with
  | InitPatch p =>
    refine ⟨?_, ?_, ?_⟩
    · show (mapKeys (mapSet s.patches p.id (σ.alloc p.toRuntime).2)).Nodup
      rw [mapKeys_mapSet]
      by_cases hm : p.id ∈ mapKeys s.patches
      · simpa [hm] using h.keysNodup
      · simp [hm, List.nodup_append, h.keysNodup]
    · show (mapRefs (mapSet s.patches p.id (σ.alloc p.toRuntime).2)).Nodup
      exact mapRefs_mapSet_nodup h.refsNodup
        (fun hmem => absurd (h.refsValid _ hmem) (lt_irrefl _))
    · intro r hr
      show r < (σ.alloc p.toRuntime).1.cells.length
      rw [store_length_alloc]
      rcases mapRefs_mapSet_subset r hr with hmem | heq
      · exact Nat.lt_succ_of_lt (h.refsValid r hmem)
      · rw [heq]
        exact Nat.lt_succ_self _
  | DeformTo i tgt tc =>
    cases hg : mapGet s.patches i with
    | none => simpa [commitAct, hg] using h
    | some r =>
      cases hc : σ.get r with
      | none => simpa [commitAct, hg, hc] using h
      | some c =>
        simp only [commitAct, hg, hc]
        exact ⟨h.keysNodup, h.refsNodup, fun r' hr' => by
          rw [store_length_set]; exact h.refsValid r' hr'⟩
  | MoveTo i tox toy tc =>
    cases hg : mapGet s.patches i with
    | none => simpa [commitAct, hg] using h
    | some r =>
      cases hc : σ.get r with
      | none => simpa [commitAct, hg, hc] using h
      | some c =>
        simp only [commitAct, hg, hc]
        exact ⟨h.keysNodup, h.refsNodup, fun r' hr' => by
          rw [store_length_set]; exact h.refsValid r' hr'⟩
  | RotateEdges i =>
    cases hg : mapGet s.patches i with
    | none => simpa [commitAct, hg] using h
    | some r =>
      cases hc : σ.get r with
      | none => simpa [commitAct, hg, hc] using h
      | some c =>
        simp only [commitAct, hg, hc]
        exact ⟨h.keysNodup, h.refsNodup, fun r' hr' => by
          rw [store_length_set]; exact h.refsValid r' hr'⟩
  | Discard i =>
    refine ⟨?_, ?_, ?_⟩
    · exact h.keysNodup.sublist (mapKeys_mapDelete_sublist s.patches i)
    · exact h.refsNodup.sublist (mapRefs_mapDelete_sublist s.patches i)
    · intro r hr
      exact h.refsValid r ((mapRefs_mapDelete_sublist s.patches i).mem hr)
  | SinglePatchMeas i basis oc => exact h
  | TwoPatchMeas li le ri re oc => exact ⟨h.keysNodup, h.refsNodup, h.refsValid⟩

theorem commitAct_resolve {σ : Store} {s : RuntimeState} (a : Action)
    (h : WF σ s) :
    resolveMap (commitAct σ s a).1 (commitAct σ s a).2.patches
      = vCommitAct (resolveMap σ s.patches) a := by
  cases a with
  | InitPatch p => exact resolveMap_alloc_set h.refsValid
  | DeformTo i tgt tc =>
    cases hg : mapGet s.patches i with
    | none =>
      simp only [commitAct, hg, vCommitAct]
      exact (vUpdate_of_mapGet_none _ hg).symm
    | some r =>
      obtain ⟨c, hc⟩ :=
        store_get_lt_isSome σ (h.refsValid r (mem_mapRefs_of_mapGet hg))
      simp only [commitAct, hg, hc, vCommitAct]
      exact resolveMap_set_eq
        (fun c => { c with rect := tgt, animFrom := none, animTo := none })
        h.refsNodup hg hc
  | MoveTo i tox toy tc =>
    cases hg : mapGet s.patches i with
    | none =>
      simp only [commitAct, hg, vCommitAct]
      exact (vUpdate_of_mapGet_none _ hg).symm
    | some r =>
      obtain ⟨c, hc⟩ :=
        store_get_lt_isSome σ (h.refsValid r (mem_mapRefs_of_mapGet hg))
      simp only [commitAct, hg, hc, vCommitAct]
      exact resolveMap_set_eq
        (fun c => { c with rect := { c.rect with x := tox, y := toy },
                           animFrom := none, animTo := none })
        h.refsNodup hg hc
  | RotateEdges i =>
    cases hg : mapGet s.patches i with
    | none =>
      simp only [commitAct, hg, vCommitAct]
      exact (vUpdate_of_mapGet_none _ hg).symm
    | some r =>
      obtain ⟨c, hc⟩ :=
        store_get_lt_isSome σ (h.refsValid r (mem_mapRefs_of_mapGet hg))
      simp only [commitAct, hg, hc, vCommitAct]
      exact resolveMap_set_eq (fun c => { c with edges := rotateCW c.edges })
        h.refsNodup hg hc
  | Discard i =>
    simp only [commitAct, vCommitAct]
    exact resolveMap_mapDelete σ s.patches i
  | SinglePatchMeas i basis oc => rfl
  | TwoPatchMeas li le ri re oc => rfl

theorem commitActions_cons (σ : Store) (s : RuntimeState) (a : Action)
    (rest : List Action) :
    commitActions σ s (a :: rest)
      = commitActions (commitAct σ s a).1 (commitAct σ s a).2 rest := rfl

theorem commitActions_WF {acts : List Action} : ∀ {σ : Store}
    {s : RuntimeState}, WF σ s →
    WF (commitActions σ s acts).1 (commitActions σ s acts).2 := by
  induction acts with
  | nil => exact id
  | cons a rest ih =>
    intro σ s h
    rw [commitActions_cons]
    exact ih (commitAct_WF a h)

theorem commitActions_resolve {acts : List Action} : ∀ {σ : Store}
    {s : RuntimeState}, WF σ s →
    resolveMap (commitActions σ s acts).1 (commitActions σ s acts).2.patches
      = acts.foldl vCommitAct (resolveMap σ s.patches) := by
  induction acts with
  | nil => intro σ s _; rfl
  | cons a rest ih =>
    intro σ s h
    rw [commitActions_cons, List.foldl_cons, ← commitAct_resolve a h]
    exact ih (commitAct_WF a h)

theorem commitActions_overlay {acts : List Action} : ∀ {σ : Store}
    {s : RuntimeState},
    (commitActions σ s acts).2.measurementOverlay
      = if acts.any isMeas then none else s.measurementOverlay := by
  induction acts with
  | nil => intro σ s; rfl
  | cons a rest ih =>
    intro σ s
    rw [commitActions_cons, ih, commitAct_overlay]
    cases hm : isMeas a <;> simp [hm, List.any_cons]

-- --- Per-action lemmas for prepare ---------------------------------------

theorem prepareAct_patches (σ : Store) (s : RuntimeState) (a : Action) :
    (prepareAct σ s a).2.patches = s.patches := by
  cases a with
  | DeformTo i tgt tc =>
    cases hg : mapGet s.patches i with
    | none => simp [prepareAct, hg]
    | some r =>
      cases hc : σ.get r with
      | none => simp [prepareAct, hg, hc]
      | some c => simp [prepareAct, hg, hc]
  | MoveTo i tox toy tc =>
    cases hg : mapGet s.patches i with
    | none => simp [prepareAct, hg]
    | some r =>
      cases hc : σ.get r with
      | none => simp [prepareAct, hg, hc]
      | some c => simp [prepareAct, hg, hc]
  | TwoPatchMeas li le ri re oc =>
    cases hl : mapGet s.patches li with
    | none => simp [prepareAct, hl]
    | some ra =>
      cases hr : mapGet s.patches ri with
      | none => simp [prepareAct, hl, hr]
      | some rb => simp [prepareAct, hl, hr]
  | InitPatch p => rfl
  | RotateEdges i => rfl
  | Discard i => rfl
  | SinglePatchMeas i basis oc => rfl

theorem prepareAct_length (σ : Store) (s : RuntimeState) (a : Action) :
    (prepareAct σ s a).1.cells.length = σ.cells.length := by
  cases a with
  | DeformTo i tgt tc =>
    cases hg : mapGet s.patches i with
    | none => simp [prepareAct, hg]
    | some r =>
      cases hc : σ.get r with
      | none => simp [prepareAct, hg, hc]
      | some c => simp [prepareAct, hg, hc, store_length_set]
  | MoveTo i tox toy tc =>
    cases hg : mapGet s.patches i with
    | none => simp [prepareAct, hg]
    | some r =>
      cases hc : σ.get r with
      | none => simp [prepareAct, hg, hc]
      | some c => simp [prepareAct, hg, hc, store_length_set]
  | TwoPatchMeas li le ri re oc =>
    cases hl : mapGet s.patches li with
    | none => simp [prepareAct, hl]
    | some ra =>
      cases hr : mapGet s.patches ri with
      | none => simp [prepareAct, hl, hr]
      | some rb => simp [prepareAct, hl, hr]
  | InitPatch p => rfl
  | RotateEdges i => rfl
  | Discard i => rfl
  | SinglePatchMeas i basis oc => rfl

theorem prepareAct_WF {σ : Store} {s : RuntimeState} (a : Action)
    (h : WF σ s) : WF (prepareAct σ s a).1 (prepareAct σ s a).2 := by
  refine ⟨?_, ?_, ?_⟩
  · rw [prepareAct_patches]; exact h.keysNodup
  · rw [prepareAct_patches]; exact h.refsNodup
  · intro r hr
    rw [prepareAct_patches] at hr
    rw [prepareAct_length]
    exact h.refsValid r hr

theorem prepareAct_resolve {σ : Store} {s : RuntimeState} (a : Action)
    (h : WF σ s) :
    resolveMap (prepareAct σ s a).1 (prepareAct σ s a).2.patches
      = vPrepareAct (resolveMap σ s.patches) a := by
  rw [prepareAct_patches]
  cases a with
  | DeformTo i tgt tc =>
    cases hg : mapGet s.patches i with
    | none =>
      simp only [prepareAct, hg, vPrepareAct]
      exact (vUpdate_of_mapGet_none _ hg).symm
    | some r =>
      obtain ⟨c, hc⟩ :=
        store_get_lt_isSome σ (h.refsValid r (mem_mapRefs_of_mapGet hg))
      simp only [prepareAct, hg, hc, vPrepareAct]
      exact resolveMap_set_eq
        (fun c => { c with animFrom := some c.rect, animTo := some tgt })
        h.refsNodup hg hc
  | MoveTo i tox toy tc =>
    cases hg : mapGet s.patches i with
    | none =>
      simp only [prepareAct, hg, vPrepareAct]
      exact (vUpdate_of_mapGet_none _ hg).symm
    | some r =>
      obtain ⟨c, hc⟩ :=
        store_get_lt_isSome σ (h.refsValid r (mem_mapRefs_of_mapGet hg))
      simp only [prepareAct, hg, hc, vPrepareAct]
      exact resolveMap_set_eq
        (fun c => { c with animFrom := some c.rect,
                           animTo := some { c.rect with x := tox, y := toy } })
        h.refsNodup hg hc
  | TwoPatchMeas li le ri re oc =>
    cases hl : mapGet s.patches li with
    | none => simp [prepareAct, hl, vPrepareAct]
    | some ra =>
      cases hr : mapGet s.patches ri with
      | none => simp [prepareAct, hl, hr, vPrepareAct]
      | some rb => simp [prepareAct, hl, hr, vPrepareAct]
  | InitPatch p => rfl
  | RotateEdges i => rfl
  | Discard i => rfl
  | SinglePatchMeas i basis oc => rfl

theorem prepareAct_overlay (σ : Store) (s : RuntimeState) (a : Action) :
    (prepareAct σ s a).2.measurementOverlay
      = match overlayFor s.patches a with
        | some o => some o
        | none => s.measurementOverlay := by
  cases a with
  | DeformTo i tgt tc =>
    cases hg : mapGet s.patches i with
    | none => simp [prepareAct, hg, overlayFor]
    | some r =>
      cases hc : σ.get r with
      | none => simp [prepareAct, hg, hc, overlayFor]
      | some c => simp [prepareAct, hg, hc, overlayFor]
  | MoveTo i tox toy tc =>
    cases hg : mapGet s.patches i with
    | none => simp [prepareAct, hg, overlayFor]
    | some r =>
      cases hc : σ.get r with
      | none => simp [prepareAct, hg, hc, overlayFor]
      | some c => simp [prepareAct, hg, hc, overlayFor]
  | TwoPatchMeas li le ri re oc =>
    cases hl : mapGet s.patches li with
    | none => simp [prepareAct, hl, overlayFor]
    | some ra =>
      cases hr : mapGet s.patches ri with
      | none => simp [prepareAct, hl, hr, overlayFor]
      | some rb => simp [prepareAct, hl, hr, overlayFor]
  | InitPatch p => rfl
  | RotateEdges i => rfl
  | Discard i => rfl
  | SinglePatchMeas i basis oc => rfl

-- --- Advance lemmas ------------------------------------------------------

theorem advStep_length (t : ℚ) (σ : Store) (e : PatchId × Ref) :
    (advStep t σ e).cells.length = σ.cells.length := by
  unfold advStep
  cases hc : σ.get e.2 with
  | none => rfl
  | some c =>
    cases hf : c.animFrom <;> cases ht : c.animTo <;>
      simp [hf, ht, store_length_set]

theorem advStep_get_self (t : ℚ) (σ : Store) (e : PatchId × Ref) :
    (advStep t σ e).get e.2 = (σ.get e.2).map (advCell t) := by
  unfold advStep
  cases hc : σ.get e.2 with
  | none => simp [hc]
  | some c =>
    cases hf : c.animFrom with
    | none => simp [advCell, hf, hc]
    | some f =>
      cases ht : c.animTo with
      | none => simp [advCell, hf, ht, hc]
      | some tgt =>
        simp only [hf, ht, Option.map_some]
        rw [store_get_set_self σ _ _ (store_lt_of_get_some hc)]
        rfl

theorem advStep_get_ne (t : ℚ) (σ : Store) (e : PatchId × Ref) {r : Ref}
    (h : r ≠ e.2) : (advStep t σ e).get r = σ.get r := by
  unfold advStep
  cases hc : σ.get e.2 with
  | none => rfl
  | some c =>
    cases hf : c.animFrom <;> cases ht : c.animTo <;>
      simp only [hf, ht] <;>
      first
        | rfl
        | exact store_get_set_ne σ _ (Ne.symm h)

theorem advFold_length (t : ℚ) : ∀ (m : PatchMap) (σ : Store),
    (m.foldl (advStep t) σ).cells.length = σ.cells.length := by
  intro m
  induction m with
  | nil => intro σ; rfl
  | cons e es ih =>
    intro σ
    rw [List.foldl_cons, ih, advStep_length]

theorem advFold_get (t : ℚ) : ∀ (m : PatchMap) (σ : Store),
    (mapRefs m).Nodup → ∀ r : Ref,
    (m.foldl (advStep t) σ).get r
      = if r ∈ mapRefs m then (σ.get r).map (advCell t) else σ.get r := by
  intro m
  induction m with
  | nil => intro σ _ r; simp [mapRefs]
  | cons e es ih =>
    intro σ hnd r
    have hcons : mapRefs (e :: es) = e.2 :: mapRefs es := rfl
    rw [hcons, List.nodup_cons] at hnd
    rw [List.foldl_cons, ih (advStep t σ e) hnd.2 r]
    by_cases he : r = e.2
    · subst he
      have hmem : e.2 ∈ mapRefs (e :: es) := by
        rw [hcons]
        exact List.mem_cons_self _ _
      rw [if_neg hnd.1, advStep_get_self, if_pos hmem]
    · rw [advStep_get_ne t σ e he]
      by_cases hm : r ∈ mapRefs es
      · have hmem : r ∈ mapRefs (e :: es) := by
          rw [hcons]
          exact List.mem_cons_of_mem _ hm
        rw [if_pos hm, if_pos hmem]
      · have hmem : r ∉ mapRefs (e :: es) := by
          rw [hcons, List.mem_cons]
          push_neg
          exact ⟨he, hm⟩
        rw [if_neg hm, if_neg hmem]

theorem advance_patches (σ : Store) (s : RuntimeState) (t : ℚ) :
    (advanceInterpolations σ s t).2.patches = s.patches := rfl

theorem advance_overlay (σ : Store) (s : RuntimeState) (t : ℚ) :
    (advanceInterpolations σ s t).2.measurementOverlay
      = s.measurementOverlay.map (fun o => { o with progress := t }) := rfl

theorem advance_length (σ : Store) (s : RuntimeState) (t : ℚ) :
    (advanceInterpolations σ s t).1.cells.length = σ.cells.length :=
  advFold_length t s.patches σ

theorem advance_get {σ : Store} {s : RuntimeState} {t : ℚ}
    (hnd : (mapRefs s.patches).Nodup) (r : Ref) :
    (advanceInterpolations σ s t).1.get r
      = if r ∈ mapRefs s.patches then (σ.get r).map (advCell t)
        else σ.get r :=
  advFold_get t s.patches σ hnd r

theorem advance_WF {σ : Store} {s : RuntimeState} {t : ℚ} (h : WF σ s) :
    WF (advanceInterpolations σ s t).1 (advanceInterpolations σ s t).2 := by
  refine ⟨h.keysNodup, h.refsNodup, ?_⟩
  intro r hr
  rw [advance_length]
  exact h.refsValid r hr

theorem advance_resolve {σ : Store} {s : RuntimeState} {t : ℚ}
    (h : WF σ s) :
    resolveMap (advanceInterpolations σ s t).1
        (advanceInterpolations σ s t).2.patches
      = vAdvance (resolveMap σ s.patches) t := by
  rw [advance_patches]
  unfold resolveMap vAdvance
  rw [List.map_map]
  apply List.map_congr_left
  intro e he
  have hmem : e.2 ∈ mapRefs s.patches := List.mem_map.2 ⟨e, he, rfl⟩
  obtain ⟨c, hc⟩ := store_get_lt_isSome σ (h.refsValid e.2 hmem)
  simp [advance_get h.refsNodup, hmem, hc]

-- --- Clone lemmas --------------------------------------------------------

/-- The loop body of `cloneRuntimeState`. -/
def cloneStep (acc : Store × PatchMap) (e : PatchId × Ref) :
    Store × PatchMap :=
  let alloc := acc.1.alloc ((acc.1.get e.2).getD defaultRP)
  (alloc.1, acc.2 ++ [(e.1, alloc.2)])

theorem cloneRuntimeState_def (σ : Store) (s : RuntimeState) :
    cloneRuntimeState σ s
      = ((s.patches.foldl cloneStep (σ, [])).1,
         { patches := (s.patches.foldl cloneStep (σ, [])).2,
           measurementOverlay := s.measurementOverlay }) := rfl

theorem cloneFold_spec : ∀ (m : PatchMap) (σ : Store) (acc : PatchMap),
    (∀ r ∈ mapRefs m, r < σ.cells.length) →
    (m.foldl cloneStep (σ, acc)).1.cells
        = σ.cells ++ m.map (fun e => (σ.get e.2).getD defaultRP)
      ∧ (m.foldl cloneStep (σ, acc)).2
        = acc ++ (mapKeys m).zip (List.range' σ.cells.length m.length 1) := by
  intro m
  induction m with
  | nil => intro σ acc _; simp [mapKeys]
  | cons e es ih =>
    intro σ acc hval
    have hvale : e.2 < σ.cells.length := hval e.2 (by simp [mapRefs])
    have hcons : mapRefs (e :: es) = e.2 :: mapRefs es := rfl
    have hvales : ∀ r ∈ mapRefs es, r < σ.cells.length := by
      intro r hr
      apply hval r
      rw [hcons]
      exact List.mem_cons_of_mem _ hr
    set v := (σ.get e.2).getD defaultRP with hv
    have hstep : cloneStep (σ, acc) e
        = ((σ.alloc v).1, acc ++ [(e.1, σ.cells.length)]) := rfl
    rw [List.foldl_cons, hstep]
    have hvales2 : ∀ r ∈ mapRefs es, r < (σ.alloc v).1.cells.length :=
      fun r hr => by rw [store_length_alloc]; exact Nat.lt_succ_of_lt (hvales r hr)
    obtain ⟨h1, h2⟩ := ih (σ.alloc v).1 (acc ++ [(e.1, σ.cells.length)]) hvales2
    constructor
    · rw [h1]
      have : es.map (fun e2 => ((σ.alloc v).1.get e2.2).getD defaultRP)
          = es.map (fun e2 => (σ.get e2.2).getD defaultRP) := by
        apply List.map_congr_left
        intro e2 he2
        rw [store_get_alloc_lt σ v (hvales e2.2 (List.mem_map.2 ⟨e2, he2, rfl⟩))]
      rw [this]
      show σ.cells ++ [v] ++ _ = _
      rw [List.append_assoc]
      rfl
    · rw [h2, store_length_alloc]
      rw [show mapKeys (e :: es) = e.1 :: mapKeys es from rfl]
      rw [show (e :: es).length = es.length + 1 from rfl]
      rw [List.range'_succ]
      rw [List.zip_cons_cons, List.append_assoc]
      rfl

theorem resolveMap_zip_range :
    ∀ (ks : List PatchId) (vs : List RuntimePatch) (pre post : List RuntimePatch),
    ks.length = vs.length →
    resolveMap ⟨pre ++ vs ++ post⟩ (ks.zip (List.range' pre.length vs.length 1))
      = ks.zip vs := by
  intro ks
  induction ks with
  | nil => intro vs pre post h; simp [resolveMap]
  | cons k ks ih =>
    intro vs pre post h
    cases vs with
    | nil => simp at h
    | cons v vs =>
      simp only [List.length_cons] at h
      rw [show (v :: vs).length = vs.length + 1 from rfl,
        List.range'_succ, List.zip_cons_cons, resolveMap_cons,
        List.zip_cons_cons]
      have hhead : (Store.mk (pre ++ (v :: vs) ++ post)).get pre.length
          = some v := by
        simp only [Store.get, List.get?_eq_getElem?]
        rw [List.append_assoc, List.getElem?_append_right (le_refl _)]
        simp
      have htail : resolveMap ⟨pre ++ (v :: vs) ++ post⟩
            (ks.zip (List.range' (pre.length + 1) vs.length 1))
          = ks.zip vs := by
        have hpre : pre ++ (v :: vs) ++ post = (pre ++ [v]) ++ vs ++ post := by
          simp
        have hlen : pre.length + 1 = (pre ++ [v]).length := by simp
        rw [hpre, hlen]
        exact ih vs (pre ++ [v]) post (Nat.succ_injective h)
      rw [hhead, htail]
      simp

theorem clone_overlay (σ : Store) (s : RuntimeState) :
    (cloneRuntimeState σ s).2.measurementOverlay = s.measurementOverlay := rfl

theorem clone_cells {σ : Store} {s : RuntimeState}
    (hval : ∀ r ∈ mapRefs s.patches, r < σ.cells.length) :
    (cloneRuntimeState σ s).1.cells
      = σ.cells ++ s.patches.map (fun e => (σ.get e.2).getD defaultRP) :=
  (cloneFold_spec s.patches σ [] hval).1

theorem clone_patches {σ : Store} {s : RuntimeState}
    (hval : ∀ r ∈ mapRefs s.patches, r < σ.cells.length) :
    (cloneRuntimeState σ s).2.patches
      = (mapKeys s.patches).zip
          (List.range' σ.cells.length s.patches.length 1) := by
  rw [cloneRuntimeState_def]
  exact (cloneFold_spec s.patches σ [] hval).2

theorem clone_length {σ : Store} {s : RuntimeState}
    (hval : ∀ r ∈ mapRefs s.patches, r < σ.cells.length) :
    (cloneRuntimeState σ s).1.cells.length
      = σ.cells.length + s.patches.length := by
  rw [show (cloneRuntimeState σ s).1.cells
      = (cloneRuntimeState σ s).1.cells from rfl, clone_cells hval]
  simp

theorem clone_get_old {σ : Store} {s : RuntimeState}
    (hval : ∀ r ∈ mapRefs s.patches, r < σ.cells.length) {r : Ref}
    (h : r < σ.cells.length) :
    (cloneRuntimeState σ s).1.get r = σ.get r := by
  show (cloneRuntimeState σ s).1.cells.get? r = σ.cells.get? r
  rw [clone_cells hval, List.get?_eq_getElem?, List.get?_eq_getElem?]
  exact List.getElem?_append_left h

theorem clone_refs {σ : Store} {s : RuntimeState}
    (hval : ∀ r ∈ mapRefs s.patches, r < σ.cells.length) :
    mapRefs (cloneRuntimeState σ s).2.patches
      = List.range' σ.cells.length s.patches.length 1 := by
  rw [clone_patches hval]
  apply List.map_snd_zip
  rw [List.length_range']
  rw [show mapKeys s.patches = s.patches.map (fun e => e.1) from rfl,
    List.length_map]

theorem clone_keys {σ : Store} {s : RuntimeState}
    (hval : ∀ r ∈ mapRefs s.patches, r < σ.cells.length) :
    mapKeys (cloneRuntimeState σ s).2.patches = mapKeys s.patches := by
  rw [clone_patches hval]
  show ((mapKeys s.patches).zip _).map Prod.fst = _
  apply List.map_fst_zip
  rw [List.length_range']
  rw [show mapKeys s.patches = s.patches.map (fun e => e.1) from rfl,
    List.length_map]

theorem clone_WF {σ : Store} {s : RuntimeState} (h : WF σ s) :
    WF (cloneRuntimeState σ s).1 (cloneRuntimeState σ s).2 := by
  refine ⟨?_, ?_, ?_⟩
  · rw [clone_keys h.refsValid]
    exact h.keysNodup
  · rw [clone_refs h.refsValid]
    exact List.nodup_range' _ _ _ Nat.one_pos
  · intro r hr
    rw [clone_refs h.refsValid] at hr
    rw [clone_length h.refsValid]
    exact (List.mem_range'_1.1 hr).2

theorem clone_refs_fresh {σ : Store} {s : RuntimeState}
    (hval : ∀ r ∈ mapRefs s.patches, r < σ.cells.length) :
    ∀ r ∈ mapRefs (cloneRuntimeState σ s).2.patches,
      σ.cells.length ≤ r := by
  intro r hr
  rw [clone_refs hval] at hr
  exact (List.mem_range'_1.1 hr).1

theorem clone_resolve {σ : Store} {s : RuntimeState}
    (hval : ∀ r ∈ mapRefs s.patches, r < σ.cells.length) :
    resolveMap (cloneRuntimeState σ s).1 (cloneRuntimeState σ s).2.patches
      = resolveMap σ s.patches := by
  have hcells := clone_cells hval
  have hpatches := clone_patches hval
  have hstore : (cloneRuntimeState σ s).1
      = ⟨σ.cells ++ s.patches.map (fun e => (σ.get e.2).getD defaultRP) ++ []⟩ := by
    cases hck : (cloneRuntimeState σ s).1 with
    | mk cells =>
      rw [hck] at hcells
      simp only [List.append_nil]
      exact congrArg Store.mk hcells
  rw [hstore, hpatches]
  rw [show s.patches.length
      = (s.patches.map (fun e => (σ.get e.2).getD defaultRP)).length from
      (List.length_map _ _).symm]
  rw [resolveMap_zip_range (mapKeys s.patches) _ σ.cells []
    (by rw [List.length_map]
        rw [show mapKeys s.patches = s.patches.map (fun e => e.1) from rfl,
          List.length_map])]
  show _ = s.patches.map (fun e => (e.1, (σ.get e.2).getD defaultRP))
  rw [show mapKeys s.patches = s.patches.map (fun e => e.1) from rfl]
  exact List.zip_map' _ _ _

-- --- Prepare-fold characterization ---------------------------------------

/-- The fold inside `prepareTick` (after the overlay reset). -/
def prepFold (σ : Store) (s : RuntimeState) (acts : List Action) :
    Store × RuntimeState :=
  acts.foldl (fun p a => prepareAct p.1 p.2 a) (σ, s)

theorem prepareTick_eq_prepFold (σ : Store) (s : RuntimeState)
    (acts : List Action) :
    prepareTick σ s acts
      = prepFold σ { s with measurementOverlay := none } acts := rfl

theorem prepFold_cons (σ : Store) (s : RuntimeState) (a : Action)
    (rest : List Action) :
    prepFold σ s (a :: rest)
      = prepFold (prepareAct σ s a).1 (prepareAct σ s a).2 rest := rfl

theorem prepFold_patches {acts : List Action} : ∀ {σ : Store}
    {s : RuntimeState}, (prepFold σ s acts).2.patches = s.patches := by
  induction acts with
  | nil => intro σ s; rfl
  | cons a rest ih =>
    intro σ s
    rw [prepFold_cons, ih, prepareAct_patches]

theorem prepFold_WF {acts : List Action} : ∀ {σ : Store} {s : RuntimeState},
    WF σ s → WF (prepFold σ s acts).1 (prepFold σ s acts).2 := by
  induction acts with
  | nil => exact id
  | cons a rest ih =>
    intro σ s h
    rw [prepFold_cons]
    exact ih (prepareAct_WF a h)

theorem prepFold_resolve {acts : List Action} : ∀ {σ : Store}
    {s : RuntimeState}, WF σ s →
    resolveMap (prepFold σ s acts).1 (prepFold σ s acts).2.patches
      = acts.foldl vPrepareAct (resolveMap σ s.patches) := by
  induction acts with
  | nil => intro σ s _; rfl
  | cons a rest ih =>
    intro σ s h
    rw [prepFold_cons, List.foldl_cons, ← prepareAct_resolve a h]
    exact ih (prepareAct_WF a h)

/-- The overlay installed by the last `TwoPatchMeas` action in the batch
whose two referenced patches both exist. -/
def lastOverlay (m : PatchMap) : List Action → Option MeasOverlay
  | [] => none
  | a :: rest =>
    match lastOverlay m rest with
    | some o => some o
    | none => overlayFor m a

theorem prepFold_overlay {acts : List Action} : ∀ {σ : Store}
    {s : RuntimeState},
    (prepFold σ s acts).2.measurementOverlay
      = match lastOverlay s.patches acts with
        | some o => some o
        | none => s.measurementOverlay := by
  induction acts with
  | nil => intro σ s; rfl
  | cons a rest ih =>
    intro σ s
    rw [prepFold_cons, ih, prepareAct_patches, prepareAct_overlay]
    cases hrest : lastOverlay s.patches rest with
    | some o => simp [lastOverlay, hrest]
    | none =>
      cases ha : overlayFor s.patches a with
      | some o => simp [lastOverlay, hrest, ha]
      | none => simp [lastOverlay, hrest, ha]

theorem prepareTick_patches (σ : Store) (s : RuntimeState)
    (acts : List Action) : (prepareTick σ s acts).2.patches = s.patches := by
  rw [prepareTick_eq_prepFold]
  exact prepFold_patches

theorem prepareTick_WF {σ : Store} {s : RuntimeState} {acts : List Action}
    (h : WF σ s) :
    WF (prepareTick σ s acts).1 (prepareTick σ s acts).2 := by
  rw [prepareTick_eq_prepFold]
  exact prepFold_WF ⟨h.keysNodup, h.refsNodup, h.refsValid⟩

theorem prepareTick_resolve {σ : Store} {s : RuntimeState}
    {acts : List Action} (h : WF σ s) :
    resolveMap (prepareTick σ s acts).1 (prepareTick σ s acts).2.patches
      = acts.foldl vPrepareAct (resolveMap σ s.patches) := by
  rw [prepareTick_eq_prepFold]
  exact prepFold_resolve ⟨h.keysNodup, h.refsNodup, h.refsValid⟩

theorem prepareTick_overlay (σ : Store) (s : RuntimeState)
    (acts : List Action) :
    (prepareTick σ s acts).2.measurementOverlay
      = lastOverlay s.patches acts := by
  rw [prepareTick_eq_prepFold, prepFold_overlay]
  cases h : lastOverlay s.patches acts <;> simp

-- --- The store effect of prepare, as a last-writer-wins function ---------

/-- The two shapes of animation-metadata writes performed by `prepareTick`. -/
inductive AnimWrite
  | deform (tgt : Rect)
  | move (tox toy : ℚ)
deriving DecidableEq, Repr

def applyWrite : AnimWrite → RuntimePatch → RuntimePatch
  | .deform tgt, c => { c with animFrom := some c.rect, animTo := some tgt }
  | .move tox toy, c =>
      { c with animFrom := some c.rect,
               animTo := some { c.rect with x := tox, y := toy } }

/-- The write that one action performs on the cell `r`, when any. -/
def animWriteOf (m : PatchMap) (r : Ref) : Action → Option AnimWrite
  | .DeformTo i tgt _ =>
      if mapGet m i = some r then some (.deform tgt) else none
  | .MoveTo i tox toy _ =>
      if mapGet m i = some r then some (.move tox toy) else none
  | _ => none

/-- The last write that a batch performs on the cell `r`, when any. -/
def lastWrite (m : PatchMap) (r : Ref) : List Action → Option AnimWrite
  | [] => none
  | a :: rest =>
    match lastWrite m r rest with
    | some w => some w
    | none => animWriteOf m r a

/-- A second animation write overrides the first entirely: the writes
never change the current rectangle, which is all a write reads. -/
theorem applyWrite_applyWrite (w w' : AnimWrite) (c : RuntimePatch) :
    applyWrite w' (applyWrite w c) = applyWrite w' c := by
  cases w <;> cases w' <;> rfl

theorem prepareAct_get (σ : Store) (s : RuntimeState) (a : Action) (r : Ref) :
    (prepareAct σ s a).1.get r
      = match animWriteOf s.patches r a with
        | none => σ.get r
        | some w => (σ.get r).map (applyWrite w) := by
  cases a with
  | DeformTo i tgt tc =>
    cases hg : mapGet s.patches i with
    | none => simp [prepareAct, hg, animWriteOf]
    | some r0 =>
      by_cases hrr : r0 = r
      · subst hrr
        cases hc : σ.get r0 with
        | none => simp [prepareAct, hg, hc, animWriteOf]
        | some c =>
          simp only [prepareAct, hg, hc, animWriteOf, if_pos rfl, hc,
            Option.map_some]
          exact store_get_set_self σ _ _ (store_lt_of_get_some hc)
      · have hne2 : ¬ (some r0 = some r) :=
          fun h => hrr (Option.some_injective _ h)
        cases hc : σ.get r0 with
        | none => simp [prepareAct, hg, hc, animWriteOf, hrr]
        | some c =>
          simp only [prepareAct, hg, hc, animWriteOf, if_neg hne2]
          exact store_get_set_ne σ _ hrr
  | MoveTo i tox toy tc =>
    cases hg : mapGet s.patches i with
    | none => simp [prepareAct, hg, animWriteOf]
    | some r0 =>
      by_cases hrr : r0 = r
      · subst hrr
        cases hc : σ.get r0 with
        | none => simp [prepareAct, hg, hc, animWriteOf]
        | some c =>
          simp only [prepareAct, hg, hc, animWriteOf, if_pos rfl, hc,
            Option.map_some]
          exact store_get_set_self σ _ _ (store_lt_of_get_some hc)
      · have hne2 : ¬ (some r0 = some r) :=
          fun h => hrr (Option.some_injective _ h)
        cases hc : σ.get r0 with
        | none => simp [prepareAct, hg, hc, animWriteOf, hrr]
        | some c =>
          simp only [prepareAct, hg, hc, animWriteOf, if_neg hne2]
          exact store_get_set_ne σ _ hrr
  | TwoPatchMeas li le ri re oc =>
    cases hl : mapGet s.patches li with
    | none => simp [prepareAct, hl, animWriteOf]
    | some ra =>
      cases hr : mapGet s.patches ri with
      | none => simp [prepareAct, hl, hr, animWriteOf]
      | some rb => simp [prepareAct, hl, hr, animWriteOf]
  | InitPatch p => rfl
  | RotateEdges i => rfl
  | Discard i => rfl
  | SinglePatchMeas i basis oc => rfl

theorem prepFold_get {acts : List Action} : ∀ {σ : Store} {s : RuntimeState}
    (r : Ref),
    (prepFold σ s acts).1.get r
      = match lastWrite s.patches r acts with
        | none => σ.get r
        | some w => (σ.get r).map (applyWrite w) := by
  induction acts with
  | nil => intro σ s r; rfl
  | cons a rest ih =>
    intro σ s r
    rw [prepFold_cons, ih r, prepareAct_patches, prepareAct_get]
    cases hw : lastWrite s.patches r rest with
    | some w =>
      cases ha : animWriteOf s.patches r a with
      | none => simp [lastWrite, hw, ha]
      | some w0 =>
        simp only [lastWrite, hw, ha]
        cases hgr : σ.get r with
        | none => simp
        | some c => simp [applyWrite_applyWrite]
    | none =>
      cases ha : animWriteOf s.patches r a with
      | none => simp [lastWrite, hw, ha]
      | some w0 => simp [lastWrite, hw, ha]

theorem runtimeState_ext {s t : RuntimeState} (h1 : s.patches = t.patches)
    (h2 : s.measurementOverlay = t.measurementOverlay) : s = t := by
  cases s
  cases t
  simp_all

/-- `prepareTick` is idempotent: repeating it with the same batch and no
intervening interpolation reproduces the same store and state. -/
theorem prepareTick_idem (σ : Store) (s : RuntimeState)
    (acts : List Action) :
    prepareTick (prepareTick σ s acts).1 (prepareTick σ s acts).2 acts
      = prepareTick σ s acts := by
  have hp : (prepareTick σ s acts).2.patches = s.patches :=
    prepareTick_patches σ s acts
  have hstore : (prepareTick (prepareTick σ s acts).1
      (prepareTick σ s acts).2 acts).1 = (prepareTick σ s acts).1 := by
    apply store_eq_of_get_eq
    intro r
    rw [prepareTick_eq_prepFold, prepFold_get r]
    rw [show ({ (prepareTick σ s acts).2 with
        measurementOverlay := none } : RuntimeState).patches
      = s.patches from hp]
    have hfirst : (prepareTick σ s acts).1.get r
        = match lastWrite s.patches r acts with
          | none => σ.get r
          | some w => (σ.get r).map (applyWrite w) := by
      rw [prepareTick_eq_prepFold, prepFold_get r]
    cases hw : lastWrite s.patches r acts with
    | none => simp only [hfirst, hw]
    | some w =>
      simp only [hfirst, hw]
      cases hgr : σ.get r with
      | none => simp
      | some c => simp [applyWrite_applyWrite]
  have hstate : (prepareTick (prepareTick σ s acts).1
      (prepareTick σ s acts).2 acts).2 = (prepareTick σ s acts).2 := by
    apply runtimeState_ext
    · rw [prepareTick_patches, hp]
    · rw [prepareTick_overlay, hp, prepareTick_overlay σ s acts]
  calc prepareTick (prepareTick σ s acts).1 (prepareTick σ s acts).2 acts
      = ((prepareTick (prepareTick σ s acts).1
          (prepareTick σ s acts).2 acts).1,
         (prepareTick (prepareTick σ s acts).1
          (prepareTick σ s acts).2 acts).2) := rfl
    _ = (prepareTick σ s acts) := by rw [hstore, hstate]

-- --- Frame lemmas: writes stay inside the own patch map ------------------

theorem commitAct_frame {σ : Store} {s : RuntimeState} {r : Ref} (a : Action)
    (hlt : r < σ.cells.length) (hnm : r ∉ mapRefs s.patches) :
    (commitAct σ s a).1.get r = σ.get r
      ∧ r ∉ mapRefs (commitAct σ s a).2.patches
      ∧ r < (commitAct σ s a).1.cells.length := by
  cases a with
  | InitPatch p =>
    refine ⟨store_get_alloc_lt σ _ hlt, ?_, ?_⟩
    · intro hmem
      rcases mapRefs_mapSet_subset r hmem with hm | he
      · exact hnm hm
      · rw [he] at hlt
        exact absurd hlt (lt_irrefl _)
    · show r < (σ.alloc p.toRuntime).1.cells.length
      rw [store_length_alloc]
      exact Nat.lt_succ_of_lt hlt
  | DeformTo i tgt tc =>
    cases hg : mapGet s.patches i with
    | none => exact ⟨by simp [commitAct, hg], by simpa [commitAct, hg], by
        simpa [commitAct, hg]⟩
    | some r0 =>
      have hne : r0 ≠ r := fun he =>
        hnm (he ▸ mem_mapRefs_of_mapGet hg)
      cases hc : σ.get r0 with
      | none => exact ⟨by simp [commitAct, hg, hc], by simpa [commitAct, hg, hc],
          by simpa [commitAct, hg, hc]⟩
      | some c =>
        simp only [commitAct, hg, hc]
        exact ⟨store_get_set_ne σ _ hne, hnm, by
          rw [store_length_set]; exact hlt⟩
  | MoveTo i tox toy tc =>
    cases hg : mapGet s.patches i with
    | none => exact ⟨by simp [commitAct, hg], by simpa [commitAct, hg], by
        simpa [commitAct, hg]⟩
    | some r0 =>
      have hne : r0 ≠ r := fun he =>
        hnm (he ▸ mem_mapRefs_of_mapGet hg)
      cases hc : σ.get r0 with
      | none => exact ⟨by simp [commitAct, hg, hc], by simpa [commitAct, hg, hc],
          by simpa [commitAct, hg, hc]⟩
      | some c =>
        simp only [commitAct, hg, hc]
        exact ⟨store_get_set_ne σ _ hne, hnm, by
          rw [store_length_set]; exact hlt⟩
  | RotateEdges i =>
    cases hg : mapGet s.patches i with
    | none => exact ⟨by simp [commitAct, hg], by simpa [commitAct, hg], by
        simpa [commitAct, hg]⟩
    | some r0 =>
      have hne : r0 ≠ r := fun he =>
        hnm (he ▸ mem_mapRefs_of_mapGet hg)
      cases hc : σ.get r0 with
      | none => exact ⟨by simp [commitAct, hg, hc], by simpa [commitAct, hg, hc],
          by simpa [commitAct, hg, hc]⟩
      | some c =>
        simp only [commitAct, hg, hc]
        exact ⟨store_get_set_ne σ _ hne, hnm, by
          rw [store_length_set]; exact hlt⟩
  | Discard i =>
    exact ⟨rfl, fun hmem =>
      hnm ((mapRefs_mapDelete_sublist s.patches i).mem hmem), hlt⟩
  | SinglePatchMeas i basis oc => exact ⟨rfl, hnm, hlt⟩
  | TwoPatchMeas li le ri re oc => exact ⟨rfl, hnm, hlt⟩

theorem commitActions_frame {acts : List Action} : ∀ {σ : Store}
    {s : RuntimeState} {r : Ref}, r < σ.cells.length →
    r ∉ mapRefs s.patches →
    (commitActions σ s acts).1.get r = σ.get r := by
  induction acts with
  | nil => intro σ s r _ _; rfl
  | cons a rest ih =>
    intro σ s r hlt hnm
    obtain ⟨h1, h2, h3⟩ := commitAct_frame a hlt hnm
    rw [commitActions_cons, ih h3 h2, h1]

theorem animWriteOf_none_of_not_mem {m : PatchMap} {r : Ref} (a : Action)
    (hnm : r ∉ mapRefs m) : animWriteOf m r a = none := by
  cases a with
  | DeformTo i tgt tc =>
    simp only [animWriteOf, ite_eq_right_iff]
    intro hg
    exact absurd (mem_mapRefs_of_mapGet hg) hnm
  | MoveTo i tox toy tc =>
    simp only [animWriteOf, ite_eq_right_iff]
    intro hg
    exact absurd (mem_mapRefs_of_mapGet hg) hnm
  | InitPatch p => rfl
  | TwoPatchMeas li le ri re oc => rfl
  | SinglePatchMeas i basis oc => rfl
  | RotateEdges i => rfl
  | Discard i => rfl

theorem lastWrite_none_of_not_mem {m : PatchMap} {r : Ref}
    {acts : List Action} (hnm : r ∉ mapRefs m) :
    lastWrite m r acts = none := by
  induction acts with
  | nil => rfl
  | cons a rest ih =>
    simp [lastWrite, ih, animWriteOf_none_of_not_mem a hnm]

theorem prepareTick_frame {σ : Store} {s : RuntimeState} {acts : List Action}
    {r : Ref} (hnm : r ∉ mapRefs s.patches) :
    (prepareTick σ s acts).1.get r = σ.get r := by
  rw [prepareTick_eq_prepFold, prepFold_get r]
  rw [show ({ s with measurementOverlay := none } : RuntimeState).patches
    = s.patches from rfl]
  rw [lastWrite_none_of_not_mem hnm]

theorem advFold_get_not_mem (t : ℚ) : ∀ (m : PatchMap) (σ : Store) {r : Ref},
    r ∉ mapRefs m → (m.foldl (advStep t) σ).get r = σ.get r := by
  intro m
  induction m with
  | nil => intro σ r _; rfl
  | cons e es ih =>
    intro σ r hnm
    have hcons : mapRefs (e :: es) = e.2 :: mapRefs es := rfl
    rw [hcons, List.mem_cons] at hnm
    push_neg at hnm
    rw [List.foldl_cons, ih (advStep t σ e) hnm.2,
      advStep_get_ne t σ e hnm.1]

theorem advance_frame {σ : Store} {s : RuntimeState} {t : ℚ} {r : Ref}
    (hnm : r ∉ mapRefs s.patches) :
    (advanceInterpolations σ s t).1.get r = σ.get r :=
  advFold_get_not_mem t s.patches σ hnm

-- --- One full tick, at the value level -----------------------------------

theorem overlayFor_eq_none_of_not_meas {m : PatchMap} {a : Action}
    (h : isMeas a = false) : overlayFor m a = none := by
  cases a with
  | TwoPatchMeas li le ri re oc => simp [isMeas] at h
  | InitPatch p => rfl
  | DeformTo i tgt tc => rfl
  | MoveTo i tox toy tc => rfl
  | SinglePatchMeas i basis oc => rfl
  | RotateEdges i => rfl
  | Discard i => rfl

theorem lastOverlay_eq_none {m : PatchMap} {acts : List Action}
    (h : acts.any isMeas = false) : lastOverlay m acts = none := by
  induction acts with
  | nil => rfl
  | cons a rest ih =>
    rw [List.any_cons] at h
    rcases Bool.or_eq_false_iff.1 h with ⟨h1, h2⟩
    simp [lastOverlay, ih h2, overlayFor_eq_none_of_not_meas h1]

/-- One full tick — prepare the batch, advance to progress one, commit the
batch — seen through the renderer observation: the patch map evolves by
the pure value-level pipeline, and the overlay always ends cleared. -/
theorem tick_pipeline {σ : Store} {s : RuntimeState} {acts : List Action}
    (h : WF σ s) :
    resolveMap (commitActions
          (advanceInterpolations (prepareTick σ s acts).1
            (prepareTick σ s acts).2 1).1
          (advanceInterpolations (prepareTick σ s acts).1
            (prepareTick σ s acts).2 1).2 acts).1
        (commitActions
          (advanceInterpolations (prepareTick σ s acts).1
            (prepareTick σ s acts).2 1).1
          (advanceInterpolations (prepareTick σ s acts).1
            (prepareTick σ s acts).2 1).2 acts).2.patches
      = vFullTick (resolveMap σ s.patches) acts
    ∧ (commitActions
          (advanceInterpolations (prepareTick σ s acts).1
            (prepareTick σ s acts).2 1).1
          (advanceInterpolations (prepareTick σ s acts).1
            (prepareTick σ s acts).2 1).2 acts).2.measurementOverlay = none
    ∧ WF (commitActions
          (advanceInterpolations (prepareTick σ s acts).1
            (prepareTick σ s acts).2 1).1
          (advanceInterpolations (prepareTick σ s acts).1
            (prepareTick σ s acts).2 1).2 acts).1
        (commitActions
          (advanceInterpolations (prepareTick σ s acts).1
            (prepareTick σ s acts).2 1).1
          (advanceInterpolations (prepareTick σ s acts).1
            (prepareTick σ s acts).2 1).2 acts).2 := by
  have hWFp : WF (prepareTick σ s acts).1 (prepareTick σ s acts).2 :=
    prepareTick_WF h
  have hWFa : WF (advanceInterpolations (prepareTick σ s acts).1
        (prepareTick σ s acts).2 1).1
      (advanceInterpolations (prepareTick σ s acts).1
        (prepareTick σ s acts).2 1).2 :=
    advance_WF hWFp
  refine ⟨?_, ?_, commitActions_WF hWFa⟩
  · rw [commitActions_resolve hWFa, advance_resolve hWFp,
      prepareTick_resolve h]
    rfl
  · rw [commitActions_overlay]
    cases hm : acts.any isMeas with
    | true => simp
    | false =>
      simp only [hm, Bool.false_eq_true, if_false]
      rw [advance_overlay, prepareTick_overlay, lastOverlay_eq_none hm]
      rfl

-- --- Component controls, reduced -----------------------------------------

/-- The prepare, advance-to-one, commit sequence shared by `stepOnce` and
a clock frame that crosses the tick boundary. -/
def fullTick (σ : Store) (s : RuntimeState) (acts : List Action) :
    Store × RuntimeState :=
  commitActions
    (advanceInterpolations (prepareTick σ s acts).1
      (prepareTick σ s acts).2 1).1
    (advanceInterpolations (prepareTick σ s acts).1
      (prepareTick σ s acts).2 1).2 acts

theorem fullTick_spec (σ : Store) (s : RuntimeState) (acts : List Action)
    (h : WF σ s) :
    resolveMap (fullTick σ s acts).1 (fullTick σ s acts).2.patches
        = vFullTick (resolveMap σ s.patches) acts
      ∧ (fullTick σ s acts).2.measurementOverlay = none
      ∧ WF (fullTick σ s acts).1 (fullTick σ s acts).2 :=
  tick_pipeline h

theorem stepOnce_eq (σ : Store) (pr : Program) (cs : CompState) :
    stepOnce σ pr cs
      = ((fullTick (cloneRuntimeState σ cs.runtime).1
            (cloneRuntimeState σ cs.runtime).2
            ((pr.steps.get? (min cs.stepIdx (pr.steps.length - 1))).getD
              emptyStep).actions).1,
         { runtime := (fullTick (cloneRuntimeState σ cs.runtime).1
              (cloneRuntimeState σ cs.runtime).2
              ((pr.steps.get? (min cs.stepIdx (pr.steps.length - 1))).getD
                emptyStep).actions).2,
           stepIdx := min (min cs.stepIdx (pr.steps.length - 1) + 1)
             (pr.steps.length - 1),
           tInStep := 0, playing := cs.playing }) := rfl

theorem stepOnce_spec (pr : Program) {σ : Store} {cs : CompState}
    (h : WF σ cs.runtime) :
    resolveMap (stepOnce σ pr cs).1 (stepOnce σ pr cs).2.runtime.patches
        = vFullTick (resolveMap σ cs.runtime.patches)
            ((pr.steps.get? (min cs.stepIdx (pr.steps.length - 1))).getD
              emptyStep).actions
      ∧ (stepOnce σ pr cs).2.runtime.measurementOverlay = none
      ∧ (stepOnce σ pr cs).2.stepIdx
          = min (min cs.stepIdx (pr.steps.length - 1) + 1)
              (pr.steps.length - 1)
      ∧ (stepOnce σ pr cs).2.tInStep = 0
      ∧ (stepOnce σ pr cs).2.playing = cs.playing := by
  rw [stepOnce_eq]
  obtain ⟨hres, hov, _⟩ := fullTick_spec (cloneRuntimeState σ cs.runtime).1
    (cloneRuntimeState σ cs.runtime).2
    ((pr.steps.get? (min cs.stepIdx (pr.steps.length - 1))).getD
      emptyStep).actions (clone_WF h)
  refine ⟨?_, hov, rfl, rfl, rfl⟩
  rw [hres, clone_resolve h.refsValid]

theorem clockFrame_tick_eq {σ : Store} {pr : Program} {cs : CompState}
    (hplay : cs.playing = true) (hlen : 0 < pr.steps.length)
    (ht0 : cs.tInStep = 0) (htick : 0 < pr.tickMs) :
    clockFrame σ pr cs pr.tickMs
      = ((fullTick
            (cloneRuntimeState (cloneRuntimeState σ cs.runtime).1
              cs.runtime).1
            (cloneRuntimeState (cloneRuntimeState σ cs.runtime).1
              cs.runtime).2
            ((pr.steps.get? cs.stepIdx).getD emptyStep).actions).1,
         { runtime := (fullTick
              (cloneRuntimeState (cloneRuntimeState σ cs.runtime).1
                cs.runtime).1
              (cloneRuntimeState (cloneRuntimeState σ cs.runtime).1
                cs.runtime).2
              ((pr.steps.get? cs.stepIdx).getD emptyStep).actions).2,
           stepIdx := min (pr.steps.length - 1) (cs.stepIdx + 1),
           tInStep := 0, playing := cs.playing }) := by
  have hdiv : pr.tickMs / pr.tickMs = 1 := div_self (ne_of_gt htick)
  have hclamp : clamp01 1 = 1 := by norm_num [clamp01]
  simp only [clockFrame, hplay, hlen, ht0, zero_add, hdiv, hclamp,
    and_self, if_true, le_refl, fullTick, true_and, and_true,
    eq_self_iff_true]

theorem clockFrame_spec {σ : Store} {pr : Program} {cs : CompState}
    (h : WF σ cs.runtime) (hplay : cs.playing = true)
    (hlen : 0 < pr.steps.length) (ht0 : cs.tInStep = 0)
    (htick : 0 < pr.tickMs) :
    resolveMap (clockFrame σ pr cs pr.tickMs).1
        (clockFrame σ pr cs pr.tickMs).2.runtime.patches
        = vFullTick (resolveMap σ cs.runtime.patches)
            ((pr.steps.get? cs.stepIdx).getD emptyStep).actions
      ∧ (clockFrame σ pr cs pr.tickMs).2.runtime.measurementOverlay = none
      ∧ (clockFrame σ pr cs pr.tickMs).2.stepIdx
          = min (pr.steps.length - 1) (cs.stepIdx + 1)
      ∧ (clockFrame σ pr cs pr.tickMs).2.tInStep = 0
      ∧ (clockFrame σ pr cs pr.tickMs).2.playing = cs.playing := by
  rw [clockFrame_tick_eq hplay hlen ht0 htick]
  have h1 : WF (cloneRuntimeState σ cs.runtime).1 cs.runtime :=
    WF_mono h (by rw [clone_length h.refsValid]; omega)
  obtain ⟨hres, hov, _⟩ := fullTick_spec
    (cloneRuntimeState (cloneRuntimeState σ cs.runtime).1 cs.runtime).1
    (cloneRuntimeState (cloneRuntimeState σ cs.runtime).1 cs.runtime).2
    ((pr.steps.get? cs.stepIdx).getD emptyStep).actions
    (clone_WF h1)
  refine ⟨?_, hov, rfl, rfl, rfl⟩
  rw [hres, clone_resolve h1.refsValid]
  rw [resolveMap_congr (fun r hr =>
    clone_get_old h.refsValid (h.refsValid r hr))]

-- --- Support for the claims ----------------------------------------------

theorem lerp_zero (a b : ℚ) : lerp a b 0 = a := by simp [lerp]

theorem lerp_one (a b : ℚ) : lerp a b 1 = b := by simp [lerp]

theorem lerpRect_zero (A B : Rect) : lerpRect A B 0 = A := by
  cases A
  cases B
  simp [lerpRect, lerp_zero]

theorem lerpRect_one (A B : Rect) : lerpRect A B 1 = B := by
  cases A
  cases B
  simp [lerpRect, lerp_one]

/-- Monotonicity of one interpolated coordinate: between the two
endpoint values, increasing when the target is larger, decreasing when
it is smaller. -/
def lerpMono (a b : ℚ) : Prop :=
  (∀ p q : ℚ, p ≤ q →
    (a ≤ b → lerp a b p ≤ lerp a b q) ∧ (b ≤ a → lerp a b q ≤ lerp a b p))
  ∧ ∀ p : ℚ, 0 ≤ p → p ≤ 1 → min a b ≤ lerp a b p ∧ lerp a b p ≤ max a b

theorem lerpMono_holds (a b : ℚ) : lerpMono a b := by
  constructor
  · intro p q hpq
    constructor
    · intro hab
      simp only [lerp]
      nlinarith [mul_nonneg (sub_nonneg.2 hab) (sub_nonneg.2 hpq)]
    · intro hba
      simp only [lerp]
      nlinarith [mul_nonneg (sub_nonneg.2 hba) (sub_nonneg.2 hpq)]
  · intro p h0 h1
    rcases le_total a b with hab | hba
    · rw [min_eq_left hab, max_eq_right hab]
      simp only [lerp]
      constructor
      · nlinarith [mul_nonneg (sub_nonneg.2 hab) h0]
      · nlinarith [mul_nonneg (sub_nonneg.2 hab) (sub_nonneg.2 h1)]
    · rw [min_eq_right hba, max_eq_left hba]
      simp only [lerp]
      constructor
      · nlinarith [mul_nonneg (sub_nonneg.2 hba) (sub_nonneg.2 h1)]
      · nlinarith [mul_nonneg (sub_nonneg.2 hba) h0]

theorem advanceMany_cons (σ : Store) (s : RuntimeState) (t : ℚ)
    (ts : List ℚ) :
    advanceMany σ s (t :: ts)
      = advanceMany (advanceInterpolations σ s t).1
          (advanceInterpolations σ s t).2 ts := rfl

theorem advanceMany_patches {ts : List ℚ} : ∀ {σ : Store} {s : RuntimeState},
    (advanceMany σ s ts).2.patches = s.patches := by
  induction ts with
  | nil => intro σ s; rfl
  | cons t ts ih =>
    intro σ s
    rw [advanceMany_cons, ih, advance_patches]

theorem advanceMany_WF {ts : List ℚ} : ∀ {σ : Store} {s : RuntimeState},
    WF σ s → WF (advanceMany σ s ts).1 (advanceMany σ s ts).2 := by
  induction ts with
  | nil => exact id
  | cons t ts ih =>
    intro σ s h
    rw [advanceMany_cons]
    exact ih (advance_WF h)

theorem rotateCW_four (e : EdgeSet) :
    rotateCW (rotateCW (rotateCW (rotateCW e))) = e := by
  cases e
  rfl

theorem mapDelete_of_get_none {m : PatchMap} {k : PatchId}
    (h : mapGet m k = none) : mapDelete m k = m := by
  induction m with
  | nil => rfl
  | cons e es ih =>
    by_cases hk : e.1 = k
    · simp [mapGet, hk] at h
    · simp [mapGet, hk] at h
      simp [mapDelete, hk, ih h]

theorem lastOverlay_eq_findSome (m : PatchMap) : ∀ acts : List Action,
    lastOverlay m acts = acts.reverse.findSome? (overlayFor m) := by
  intro acts
  induction acts with
  | nil => rfl
  | cons a rest ih =>
    rw [show (a :: rest).reverse = rest.reverse ++ [a] from by simp,
      List.findSome?_append]
    rw [show lastOverlay m (a :: rest)
        = match lastOverlay m rest with
          | some o => some o
          | none => overlayFor m a from rfl, ih]
    cases h : rest.reverse.findSome? (overlayFor m) with
    | some o => simp [h, Option.or]
    | none =>
      cases ha : overlayFor m a <;>
        simp [h, Option.or, List.findSome?_cons, ha]

/-- The single-action commit step for `RotateEdges`, used to iterate. -/
def rotStep (i : PatchId) (p : Store × RuntimeState) :
    Store × RuntimeState :=
  commitActions p.1 p.2 [.RotateEdges i]

theorem rotStep_eq {σ : Store} {s : RuntimeState} {i : PatchId} {r : Ref}
    {c : RuntimePatch} (hg : mapGet s.patches i = some r)
    (hc : σ.get r = some c) :
    rotStep i (σ, s) = (σ.set r { c with edges := rotateCW c.edges }, s) := by
  show commitAct σ s (.RotateEdges i) = _
  simp [commitAct, hg, hc]

-- --- The claims -----------------------------------------------------------

/-- C1: when a patch records both an animate-from rectangle A and an
animate-to rectangle B, `advanceInterpolations` at progress p sets its
current rectangle to the per-coordinate affine interpolation
`lerpRect A B p`; the interpolation equals A at p equal to zero and B at
p equal to one, and each coordinate is monotonic in p between the two
endpoint values. -/
theorem advance_interpolates_lerp {σ : Store} {s : RuntimeState}
    {i : PatchId} {r : Ref} {c : RuntimePatch} {A B : Rect} {p : ℚ}
    (hnd : (mapRefs s.patches).Nodup) (hmem : (i, r) ∈ s.patches)
    (hc : σ.get r = some c) (hA : c.animFrom = some A)
    (hB : c.animTo = some B) :
    (advanceInterpolations σ s p).1.get r
        = some { c with rect := lerpRect A B p }
      ∧ lerpRect A B 0 = A ∧ lerpRect A B 1 = B
      ∧ lerpMono A.x B.x ∧ lerpMono A.y B.y ∧ lerpMono A.w B.w
      ∧ lerpMono A.h B.h := by
  have hrmem : r ∈ mapRefs s.patches := List.mem_map.2 ⟨(i, r), hmem, rfl⟩
  refine ⟨?_, lerpRect_zero A B, lerpRect_one A B, lerpMono_holds _ _,
    lerpMono_holds _ _, lerpMono_holds _ _, lerpMono_holds _ _⟩
  rw [advance_get hnd, if_pos hrmem, hc]
  simp [advCell, hA, hB]

/-- C2: committing a `DeformTo` action to rectangle R writes exactly R
into the patch rectangle and clears both animation fields, whatever
sequence of `advanceInterpolations` calls preceded the commit. -/
theorem commit_deform_exact {σ : Store} {s : RuntimeState} {i : PatchId}
    {r : Ref} {R : Rect} {tc : Option Nat} {ts : List ℚ}
    (h : WF σ s) (hg : mapGet s.patches i = some r) :
    ∃ c : RuntimePatch,
      (commitActions (advanceMany σ s ts).1 (advanceMany σ s ts).2
          [.DeformTo i R tc]).1.get r = some c
        ∧ c.rect = R ∧ c.animFrom = none ∧ c.animTo = none := by
  have hWF : WF (advanceMany σ s ts).1 (advanceMany σ s ts).2 :=
    advanceMany_WF h
  have hg2 : mapGet (advanceMany σ s ts).2.patches i = some r := by
    rw [advanceMany_patches]
    exact hg
  obtain ⟨c0, hc0⟩ := store_get_lt_isSome (advanceMany σ s ts).1
    (hWF.refsValid r (by rw [advanceMany_patches]; exact mem_mapRefs_of_mapGet hg))
  refine ⟨{ c0 with rect := R, animFrom := none, animTo := none }, ?_, rfl,
    rfl, rfl⟩
  show (commitAct (advanceMany σ s ts).1 (advanceMany σ s ts).2
    (.DeformTo i R tc)).1.get r = _
  simp only [commitAct, hg2, hc0]
  exact store_get_set_self _ _ _ (store_lt_of_get_some hc0)

/-- C3: a runtime state holds at most one measurement overlay (a single
optional slot); `prepareTick` first clears it, then installs one overlay
per `TwoPatchMeas` action whose two referenced patches both exist —
referencing the two patch objects, the specified edges, the optional
outcome, and progress zero — so the overlay left by the batch is the one
of the last such action: the last hit of `overlayFor` over the reversed
batch, independent of the previously active overlay. -/
theorem prepare_overlay_last_wins (σ : Store) (s : RuntimeState)
    (acts : List Action) :
    (prepareTick σ s acts).2.measurementOverlay
      = acts.reverse.findSome? (overlayFor s.patches) := by
  rw [prepareTick_overlay, lastOverlay_eq_findSome]

/-- C6: committing `RotateEdges` maps the boundary kinds by the cyclic
shift new top = old left, new right = old top, new bottom = old right,
new left = old bottom, and committing it four times in succession
restores the original patch cell. -/
theorem rotStep_pow {s : RuntimeState} {i : PatchId} {r : Ref}
    (hg : mapGet s.patches i = some r) :
    ∀ (n : Nat) (σ : Store) (c : RuntimePatch), σ.get r = some c →
    ∃ σ2 : Store, (rotStep i)^[n] (σ, s) = (σ2, s)
      ∧ σ2.get r = some { c with edges := rotateCW^[n] c.edges } := by
  intro n
  induction n with
  | zero =>
    rintro σ ⟨cid, crect, cedges, clab, caf, cat⟩ hc
    exact ⟨σ, rfl, hc⟩
  | succ n ih =>
    rintro σ ⟨cid, crect, cedges, clab, caf, cat⟩ hc
    rw [Function.iterate_succ_apply, rotStep_eq hg hc]
    obtain ⟨σ2, h1, h2⟩ := ih
      (σ.set r ⟨cid, crect, rotateCW cedges, clab, caf, cat⟩)
      ⟨cid, crect, rotateCW cedges, clab, caf, cat⟩
      (store_get_set_self σ r _ (store_lt_of_get_some hc))
    refine ⟨σ2, h1, ?_⟩
    rw [h2, Function.iterate_succ_apply]

theorem rotate_edges_cycle {σ : Store} {s : RuntimeState} {i : PatchId}
    {r : Ref} {c : RuntimePatch} (hg : mapGet s.patches i = some r)
    (hc : σ.get r = some c) :
    (commitActions σ s [.RotateEdges i]).1.get r
        = some { c with edges := rotateCW c.edges }
      ∧ rotateCW c.edges
          = ⟨c.edges.left, c.edges.top, c.edges.right, c.edges.bottom⟩
      ∧ ((rotStep i)^[4] (σ, s)).1.get r = some c := by
  have hlt := store_lt_of_get_some hc
  refine ⟨?_, rfl, ?_⟩
  · show (rotStep i (σ, s)).1.get r = _
    rw [rotStep_eq hg hc]
    exact store_get_set_self σ r _ hlt
  · obtain ⟨σ2, h1, h2⟩ := rotStep_pow hg 4 σ c hc
    rw [h1]
    show σ2.get r = _
    rw [h2]
    obtain ⟨cid, crect, cedges, clab, caf, cat⟩ := c
    have h4 : rotateCW^[4] cedges = cedges := rotateCW_four cedges
    rw [h4]

/-- C9: a `MoveTo` action never changes the patch size: `prepareTick`
records animate-from as the current rectangle and animate-to as the
current rectangle with only x and y replaced, and `commitActions` writes
only x and y, leaving width, height, edges and label untouched while
clearing the animation fields. -/
theorem move_preserves_size {σ : Store} {s : RuntimeState} {i : PatchId}
    {r : Ref} {c : RuntimePatch} {tox toy : ℚ} {tc : Option Nat}
    (hg : mapGet s.patches i = some r) (hc : σ.get r = some c) :
    (prepareTick σ s [.MoveTo i tox toy tc]).1.get r
        = some { c with animFrom := some c.rect,
                        animTo := some { c.rect with x := tox, y := toy } }
      ∧ ∃ c2 : RuntimePatch,
        (commitActions σ s [.MoveTo i tox toy tc]).1.get r = some c2
          ∧ c2.rect.x = tox ∧ c2.rect.y = toy
          ∧ c2.rect.w = c.rect.w ∧ c2.rect.h = c.rect.h
          ∧ c2.edges = c.edges ∧ c2.label = c.label
          ∧ c2.animFrom = none ∧ c2.animTo = none := by
  have hlt := store_lt_of_get_some hc
  constructor
  · show (prepareAct σ { s with measurementOverlay := none }
      (.MoveTo i tox toy tc)).1.get r = _
    simp only [prepareAct, hg, hc]
    exact store_get_set_self σ r _ hlt
  · refine ⟨⟨c.id, ⟨tox, toy, c.rect.w, c.rect.h⟩, c.edges, c.label,
      none, none⟩, ?_, rfl, rfl, rfl, rfl, rfl, rfl, rfl, rfl⟩
    show (commitAct σ s (.MoveTo i tox toy tc)).1.get r = _
    simp only [commitAct, hg, hc]
    exact store_get_set_self σ r _ hlt

/-- C4 (amended): `cloneRuntimeState` deep-copies the patch map — the
clone's map references are fresh and disjoint from the original's, the
cloned content is equal, and committing any actions on either state
leaves the resolved patch map of the other unchanged; the overlay,
however, is copied shallowly (see the counterexample). -/
theorem clone_map_isolation {σ : Store} {s : RuntimeState} (h : WF σ s) :
    (∀ r ∈ mapRefs (cloneRuntimeState σ s).2.patches,
        r ∉ mapRefs s.patches)
    ∧ resolveMap (cloneRuntimeState σ s).1 (cloneRuntimeState σ s).2.patches
        = resolveMap σ s.patches
    ∧ (∀ acts : List Action,
        resolveMap (commitActions (cloneRuntimeState σ s).1 s acts).1
            (cloneRuntimeState σ s).2.patches
          = resolveMap (cloneRuntimeState σ s).1
              (cloneRuntimeState σ s).2.patches)
    ∧ (∀ acts : List Action,
        resolveMap (commitActions (cloneRuntimeState σ s).1
              (cloneRuntimeState σ s).2 acts).1 s.patches
          = resolveMap (cloneRuntimeState σ s).1 s.patches) := by
  have hdisj : ∀ r ∈ mapRefs (cloneRuntimeState σ s).2.patches,
      r ∉ mapRefs s.patches := by
    intro r hr hmem
    exact absurd (h.refsValid r hmem)
      (not_lt.2 (clone_refs_fresh h.refsValid r hr))
  refine ⟨hdisj, clone_resolve h.refsValid, ?_, ?_⟩
  · intro acts
    apply resolveMap_congr
    intro r hr
    exact commitActions_frame ((clone_WF h).refsValid r hr) (hdisj r hr)
  · intro acts
    apply resolveMap_congr
    intro r hr
    have hlt : r < (cloneRuntimeState σ s).1.cells.length := by
      rw [clone_length h.refsValid]
      exact lt_of_lt_of_le (h.refsValid r hr) (Nat.le_add_right _ _)
    have hnm : r ∉ mapRefs (cloneRuntimeState σ s).2.patches :=
      fun hmem => hdisj r hmem hr
    exact commitActions_frame hlt hnm

/-- C5 (amended): an action whose target patch identifier is absent is a
no-op in `prepareAct` and leaves the store and the patch map unchanged in
`commitAct`; the overlay is also left unchanged by every such action
except a `TwoPatchMeas`, whose commit clears the overlay regardless of
whether its referenced patches exist. -/
theorem dangling_noop {σ : Store} {s : RuntimeState} {a : Action}
    (hd : dangling s a = true) :
    prepareAct σ s a = (σ, s)
    ∧ (commitAct σ s a).1 = σ
    ∧ (commitAct σ s a).2.patches = s.patches
    ∧ (commitAct σ s a).2.measurementOverlay
        = (if isMeas a then none else s.measurementOverlay) := by
  cases a with
  | InitPatch p => simp [dangling] at hd
  | DeformTo i tgt tc =>
    have hg : mapGet s.patches i = none := by
      simpa [dangling, Option.isNone_iff_eq_none] using hd
    exact ⟨by simp [prepareAct, hg], by simp [commitAct, hg],
      by simp [commitAct, hg], by simp [commitAct, hg, isMeas]⟩
  | MoveTo i tox toy tc =>
    have hg : mapGet s.patches i = none := by
      simpa [dangling, Option.isNone_iff_eq_none] using hd
    exact ⟨by simp [prepareAct, hg], by simp [commitAct, hg],
      by simp [commitAct, hg], by simp [commitAct, hg, isMeas]⟩
  | RotateEdges i =>
    have hg : mapGet s.patches i = none := by
      simpa [dangling, Option.isNone_iff_eq_none] using hd
    exact ⟨rfl, by simp [commitAct, hg], by simp [commitAct, hg],
      by simp [commitAct, hg, isMeas]⟩
  | Discard i =>
    have hg : mapGet s.patches i = none := by
      simpa [dangling, Option.isNone_iff_eq_none] using hd
    refine ⟨rfl, rfl, ?_, by simp [commitAct, isMeas]⟩
    show mapDelete s.patches i = s.patches
    exact mapDelete_of_get_none hg
  | SinglePatchMeas i basis oc =>
    exact ⟨rfl, rfl, rfl, by simp [commitAct, isMeas]⟩
  | TwoPatchMeas li le ri re oc =>
    have hor : mapGet s.patches li = none ∨ mapGet s.patches ri = none := by
      simpa [dangling, Option.isNone_iff_eq_none] using hd
    refine ⟨?_, rfl, rfl, by simp [commitAct, isMeas]⟩
    cases hl : mapGet s.patches li with
    | none => simp [prepareAct, hl]
    | some ra =>
      cases hr : mapGet s.patches ri with
      | none => simp [prepareAct, hl, hr]
      | some rb =>
        rw [hl, hr] at hor
        rcases hor with h | h <;> exact absurd h (by simp)

/-- C7: with the cursor at the start of a tick, pressing the step
control once produces the same observable committed runtime state and
the same cursor as one animation-clock callback whose elapsed real time
is exactly one tick duration. -/
theorem step_once_equiv_clock {σ : Store} {pr : Program} {cs : CompState}
    (h : WF σ cs.runtime) (hplay : cs.playing = true)
    (hlen : 0 < pr.steps.length) (hidx : cs.stepIdx < pr.steps.length)
    (ht0 : cs.tInStep = 0) (htick : 0 < pr.tickMs) :
    observe (stepOnce σ pr cs).1 (stepOnce σ pr cs).2.runtime
        = observe (clockFrame σ pr cs pr.tickMs).1
            (clockFrame σ pr cs pr.tickMs).2.runtime
      ∧ (stepOnce σ pr cs).2.stepIdx
          = (clockFrame σ pr cs pr.tickMs).2.stepIdx
      ∧ (stepOnce σ pr cs).2.tInStep
          = (clockFrame σ pr cs pr.tickMs).2.tInStep
      ∧ (stepOnce σ pr cs).2.playing
          = (clockFrame σ pr cs pr.tickMs).2.playing := by
  obtain ⟨sres, sov, sidx, st0, spl⟩ := stepOnce_spec pr h
  obtain ⟨cres, cov, cidx, ct0, cpl⟩ := clockFrame_spec h hplay hlen ht0 htick
  have hmin : min cs.stepIdx (pr.steps.length - 1) = cs.stepIdx :=
    min_eq_left (Nat.le_sub_one_of_lt hidx)
  rw [hmin] at sres sidx
  refine ⟨?_, ?_, ?_, ?_⟩
  · unfold observe
    rw [sres, cres,
      show overlayView (stepOnce σ pr cs).1 (stepOnce σ pr cs).2.runtime
        = none from by simp [overlayView, sov],
      show overlayView (clockFrame σ pr cs pr.tickMs).1
          (clockFrame σ pr cs pr.tickMs).2.runtime
        = none from by simp [overlayView, cov]]
  · rw [sidx, cidx, Nat.min_comm]
  · rw [st0, ct0]
  · rw [spl, cpl]

/-- C8 (counterexample): there is no runtime state and batch on which a
second `prepareTick` with no intervening interpolation is observably
different from a single one — the two stores and states are equal. -/
theorem prepare_double_not_different :
    ¬ ∃ (σ : Store) (s : RuntimeState) (acts : List Action),
      prepareTick (prepareTick σ s acts).1 (prepareTick σ s acts).2 acts
        ≠ prepareTick σ s acts := by
  rintro ⟨σ, s, acts, hne⟩
  exact hne (prepareTick_idem σ s acts)

/-- C8 (amended): calling `prepareTick` a second time with the same
batch and no intervening `advanceInterpolations` is observably identical
to calling it once: each call clears the overlay and recomputes the
animation metadata from the unchanged current rectangles. -/
theorem prepare_idempotent_no_advance (σ : Store) (s : RuntimeState)
    (acts : List Action) :
    prepareTick (prepareTick σ s acts).1 (prepareTick σ s acts).2 acts
      = prepareTick σ s acts :=
  prepareTick_idem σ s acts

/-- C10: with the cursor already at the last step, the step control (and
a clock frame crossing the tick boundary while playing) again prepares
and commits the final step's whole batch while the step index stays at
the last step. -/
theorem last_step_repeats {σ : Store} {pr : Program} {cs : CompState}
    (h : WF σ cs.runtime) (hlen : 0 < pr.steps.length)
    (hidx : cs.stepIdx = pr.steps.length - 1) (hplay : cs.playing = true)
    (ht0 : cs.tInStep = 0) (htick : 0 < pr.tickMs) :
    ((stepOnce σ pr cs).2.stepIdx = pr.steps.length - 1
      ∧ (stepOnce σ pr cs).2.tInStep = 0
      ∧ resolveMap (stepOnce σ pr cs).1
            (stepOnce σ pr cs).2.runtime.patches
          = vFullTick (resolveMap σ cs.runtime.patches)
              ((pr.steps.get? (pr.steps.length - 1)).getD emptyStep).actions)
    ∧ ((clockFrame σ pr cs pr.tickMs).2.stepIdx = pr.steps.length - 1
      ∧ (clockFrame σ pr cs pr.tickMs).2.tInStep = 0
      ∧ resolveMap (clockFrame σ pr cs pr.tickMs).1
            (clockFrame σ pr cs pr.tickMs).2.runtime.patches
          = vFullTick (resolveMap σ cs.runtime.patches)
              ((pr.steps.get? (pr.steps.length - 1)).getD
                emptyStep).actions) := by
  obtain ⟨sres, sov, sidx, st0, spl⟩ := stepOnce_spec pr h
  obtain ⟨cres, cov, cidx, ct0, cpl⟩ := clockFrame_spec h hplay hlen ht0 htick
  have hm : min cs.stepIdx (pr.steps.length - 1) = pr.steps.length - 1 := by
    rw [hidx, min_self]
  constructor
  · refine ⟨?_, st0, ?_⟩
    · rw [sidx, hm]
      exact min_eq_right (Nat.le_succ _)
    · rw [sres, hm]
  · refine ⟨?_, ct0, ?_⟩
    · rw [cidx, hidx]
      exact min_eq_left (Nat.le_succ _)
    · rw [cres, hidx]

-- --- Concrete data for witnesses and counterexamples ----------------------

def exPatch : RuntimePatch :=
  ⟨"q0", ⟨6, 7, 3, 3⟩, ⟨.Z, .X, .Z, .X⟩, some "q0", none, none⟩

def exStore : Store := ⟨[exPatch]⟩

def exState : RuntimeState := ⟨[("q0", 0)], none⟩

def exAnimPatch : RuntimePatch :=
  ⟨"q0", ⟨6, 7, 3, 3⟩, ⟨.Z, .X, .Z, .X⟩, some "q0",
    some ⟨6, 7, 3, 3⟩, some ⟨8, 7, 4, 3⟩⟩

def exAnimStore : Store := ⟨[exAnimPatch]⟩

def exOverlayState : RuntimeState :=
  ⟨[("q0", 0)], some ⟨0, .right, 0, .left, some 1, 0⟩⟩

def exProgram : Program :=
  { tickMs := 700, gridCols := 26, gridRows := 16,
    steps := [⟨[.RotateEdges "q0"], some "rotate edges"⟩] }

def exComp : CompState :=
  { runtime := exState, stepIdx := 0, tInStep := 0, playing := true }

/-- C4 (counterexample): the clone's overlay keeps the original patch
references, so deforming the original patch is observable through the
clone's overlay — the snapshot is not a fully independent deep copy. -/
theorem clone_shares_overlay_counterexample :
    (cloneRuntimeState exStore exOverlayState).2.measurementOverlay
        = exOverlayState.measurementOverlay
    ∧ overlayView
        (commitActions (cloneRuntimeState exStore exOverlayState).1
          exOverlayState [.DeformTo "q0" ⟨8, 7, 4, 3⟩ none]).1
        (cloneRuntimeState exStore exOverlayState).2
      ≠ overlayView (cloneRuntimeState exStore exOverlayState).1
          (cloneRuntimeState exStore exOverlayState).2 := by
  decide

/-- C5 (counterexample): a `TwoPatchMeas` action whose two patch
identifiers are both absent still clears the active measurement overlay
on commit, so the runtime state is not left entirely unchanged. -/
theorem dangling_meas_clears_overlay_counterexample :
    dangling exOverlayState (.TwoPatchMeas "ghost" .top "gh2" .top none)
        = true
    ∧ (commitActions exStore exOverlayState
          [.TwoPatchMeas "ghost" .top "gh2" .top none]).2.measurementOverlay
        = none
    ∧ exOverlayState.measurementOverlay ≠ none
    ∧ (commitActions exStore exOverlayState
          [.TwoPatchMeas "ghost" .top "gh2" .top none]).2
        ≠ exOverlayState := by
  decide

-- --- Witnesses ------------------------------------------------------------

theorem advance_interpolates_lerp_witness :
    (advanceInterpolations exAnimStore exState (1/2)).1.get 0
        = some ⟨"q0", lerpRect ⟨6, 7, 3, 3⟩ ⟨8, 7, 4, 3⟩ (1/2),
            ⟨.Z, .X, .Z, .X⟩, some "q0", some ⟨6, 7, 3, 3⟩,
            some ⟨8, 7, 4, 3⟩⟩
      ∧ lerpRect ⟨6, 7, 3, 3⟩ ⟨8, 7, 4, 3⟩ 0 = ⟨6, 7, 3, 3⟩
      ∧ lerpRect ⟨6, 7, 3, 3⟩ ⟨8, 7, 4, 3⟩ 1 = ⟨8, 7, 4, 3⟩
      ∧ lerpMono 6 8 ∧ lerpMono 7 7 ∧ lerpMono 3 4 ∧ lerpMono 3 3 :=
  advance_interpolates_lerp
    (show (mapRefs exState.patches).Nodup by decide)
    (show ("q0", 0) ∈ exState.patches by decide)
    (show exAnimStore.get 0 = some exAnimPatch from rfl)
    (show exAnimPatch.animFrom = some ⟨6, 7, 3, 3⟩ from rfl)
    (show exAnimPatch.animTo = some ⟨8, 7, 4, 3⟩ from rfl)

theorem commit_deform_exact_witness :
    ∃ c : RuntimePatch,
      (commitActions (advanceMany exAnimStore exState [1/3, 1]).1
          (advanceMany exAnimStore exState [1/3, 1]).2
          [.DeformTo "q0" ⟨8, 7, 4, 3⟩ none]).1.get 0 = some c
        ∧ c.rect = ⟨8, 7, 4, 3⟩ ∧ c.animFrom = none ∧ c.animTo = none :=
  commit_deform_exact ⟨by decide, by decide, by decide⟩
    (show mapGet exState.patches "q0" = some 0 by decide)

theorem clone_map_isolation_witness :
    (∀ r ∈ mapRefs (cloneRuntimeState exStore exOverlayState).2.patches,
        r ∉ mapRefs exOverlayState.patches)
    ∧ resolveMap (cloneRuntimeState exStore exOverlayState).1
          (cloneRuntimeState exStore exOverlayState).2.patches
        = resolveMap exStore exOverlayState.patches
    ∧ (∀ acts : List Action,
        resolveMap (commitActions
              (cloneRuntimeState exStore exOverlayState).1
              exOverlayState acts).1
            (cloneRuntimeState exStore exOverlayState).2.patches
          = resolveMap (cloneRuntimeState exStore exOverlayState).1
              (cloneRuntimeState exStore exOverlayState).2.patches)
    ∧ (∀ acts : List Action,
        resolveMap (commitActions
              (cloneRuntimeState exStore exOverlayState).1
              (cloneRuntimeState exStore exOverlayState).2 acts).1
            exOverlayState.patches
          = resolveMap (cloneRuntimeState exStore exOverlayState).1
              exOverlayState.patches) :=
  clone_map_isolation ⟨by decide, by decide, by decide⟩

theorem dangling_noop_witness :
    prepareAct exStore exOverlayState (.RotateEdges "ghost")
        = (exStore, exOverlayState)
    ∧ (commitAct exStore exOverlayState (.RotateEdges "ghost")).1 = exStore
    ∧ (commitAct exStore exOverlayState
        (.RotateEdges "ghost")).2.patches = exOverlayState.patches
    ∧ (commitAct exStore exOverlayState
          (.RotateEdges "ghost")).2.measurementOverlay
        = (if isMeas (.RotateEdges "ghost") then none
           else exOverlayState.measurementOverlay) :=
  dangling_noop (by decide)

theorem rotate_edges_cycle_witness :
    (commitActions exStore exState [.RotateEdges "q0"]).1.get 0
        = some ⟨"q0", ⟨6, 7, 3, 3⟩, rotateCW exPatch.edges, some "q0",
            none, none⟩
      ∧ rotateCW exPatch.edges
          = ⟨exPatch.edges.left, exPatch.edges.top, exPatch.edges.right,
             exPatch.edges.bottom⟩
      ∧ ((rotStep "q0")^[4] (exStore, exState)).1.get 0 = some exPatch :=
  rotate_edges_cycle
    (show mapGet exState.patches "q0" = some 0 by decide)
    (show exStore.get 0 = some exPatch from rfl)

theorem step_once_equiv_clock_witness :
    observe (stepOnce exStore exProgram exComp).1
        (stepOnce exStore exProgram exComp).2.runtime
      = observe (clockFrame exStore exProgram exComp exProgram.tickMs).1
          (clockFrame exStore exProgram exComp exProgram.tickMs).2.runtime
    ∧ (stepOnce exStore exProgram exComp).2.stepIdx
        = (clockFrame exStore exProgram exComp exProgram.tickMs).2.stepIdx
    ∧ (stepOnce exStore exProgram exComp).2.tInStep
        = (clockFrame exStore exProgram exComp exProgram.tickMs).2.tInStep
    ∧ (stepOnce exStore exProgram exComp).2.playing
        = (clockFrame exStore exProgram exComp exProgram.tickMs).2.playing :=
  step_once_equiv_clock ⟨by decide, by decide, by decide⟩ rfl (by decide)
    (by decide) rfl (by decide)

theorem move_preserves_size_witness :
    (prepareTick exStore exState [.MoveTo "q0" 10 11 none]).1.get 0
        = some ⟨"q0", ⟨6, 7, 3, 3⟩, ⟨.Z, .X, .Z, .X⟩, some "q0",
            some ⟨6, 7, 3, 3⟩, some ⟨10, 11, 3, 3⟩⟩
      ∧ ∃ c2 : RuntimePatch,
        (commitActions exStore exState [.MoveTo "q0" 10 11 none]).1.get 0
            = some c2
          ∧ c2.rect.x = 10 ∧ c2.rect.y = 11
          ∧ c2.rect.w = exPatch.rect.w ∧ c2.rect.h = exPatch.rect.h
          ∧ c2.edges = exPatch.edges ∧ c2.label = exPatch.label
          ∧ c2.animFrom = none ∧ c2.animTo = none :=
  move_preserves_size
    (show mapGet exState.patches "q0" = some 0 by decide)
    (show exStore.get 0 = some exPatch from rfl)

theorem last_step_repeats_witness :
    (((stepOnce exStore exProgram exComp).2.stepIdx
          = exProgram.steps.length - 1
      ∧ (stepOnce exStore exProgram exComp).2.tInStep = 0
      ∧ resolveMap (stepOnce exStore exProgram exComp).1
            (stepOnce exStore exProgram exComp).2.runtime.patches
          = vFullTick (resolveMap exStore exComp.runtime.patches)
              ((exProgram.steps.get? (exProgram.steps.length - 1)).getD
                emptyStep).actions)
    ∧ ((clockFrame exStore exProgram exComp exProgram.tickMs).2.stepIdx
          = exProgram.steps.length - 1
      ∧ (clockFrame exStore exProgram exComp
          exProgram.tickMs).2.tInStep = 0
      ∧ resolveMap (clockFrame exStore exProgram exComp
              exProgram.tickMs).1
            (clockFrame exStore exProgram exComp
              exProgram.tickMs).2.runtime.patches
          = vFullTick (resolveMap exStore exComp.runtime.patches)
              ((exProgram.steps.get? (exProgram.steps.length - 1)).getD
                emptyStep).actions))
    ∧ vFullTick (resolveMap exStore exState.patches) [.RotateEdges "q0"]
        ≠ resolveMap exStore exState.patches :=
  ⟨last_step_repeats ⟨by decide, by decide, by decide⟩ (by decide) rfl rfl
      rfl (by decide), by decide⟩

end SurgeryGame
